import Mathlib

/-!
Verification of the xray-checker proxy-health engine and its hysteretic
top-K selector against a shallow Lean embedding of the Go source.

The embedding conventions used throughout:

* Go `time.Duration` and `time.Time` values are modelled as natural numbers
  of nanoseconds; all durations produced by the program are nonnegative, and
  Go's negative-difference corner (`now.Sub(t)` with `t` in the future)
  agrees with truncated subtraction for every comparison the code performs
  (a negative Go duration and a truncated-to-zero Nat both fail the
  `≥ threshold` tests for the positive thresholds used here).
* Go maps are modelled as association lists (`AList`).  Lookup, insert
  (overwrite-in-place) and delete mirror Go map semantics; the list order
  models Go's unspecified map iteration order, so two association lists that
  are equal as maps but differently ordered model two map states that Go is
  free to iterate differently.
* Go `strings.ToUpper` / `strings.ToLower` are Unicode-aware; the names and
  markers compared by this program ("BL", "CIDR") are ASCII, and the
  embedding uses the ASCII case maps, which agree with Go on ASCII input.
  `strings.TrimSpace` is modelled by `String.trim` (same behaviour on ASCII
  whitespace).
* Go float64 arithmetic in `applyEMA`
  (`time.Duration(0.7*float64(prev) + 0.3*float64(raw))`) is modelled
  exactly as IEEE-754 double arithmetic over dyadic rationals: every
  operand is an integer numerator over a fixed power-of-two denominator,
  `flRound` rounds a numerator to the nearest-even 53-bit significand
  (the rounding each conversion, multiplication and addition performs),
  the two coefficients are the doubles nearest 0.7 and 0.3, and the final
  duration conversion truncates toward zero.  The float64 result can
  differ from the exact `(7*prev + 3*raw)/10` by one nanosecond.
* The float64 ratio test `(cur-cand)/cur >= 0.20` in
  `isSignificantImprovement` is modelled by the exact integer comparison
  `5*(cur-cand) >= cur`.  The branch is only reached for latency gaps
  under 50 ms, and for every duration below about 10^15 ns the float64
  comparison and the exact comparison decide identically there.
-/

set_option maxRecDepth 4000

namespace XrayChecker

/-! ### Association lists modelling Go maps -/

/-- Lookup in an association list, mirroring a Go map read. -/
def alookup {α : Type} : List (String × α) → String → Option α
  | [], _ => none
  | (k', v) :: rest, k => if k = k' then some v else alookup rest k

/-- Insert/overwrite in an association list, mirroring a Go map write:
the value for an existing key is replaced in place, a new key is appended. -/
def ains {α : Type} : List (String × α) → String → α → List (String × α)
  | [], k, v => [(k, v)]
  | (k', v') :: rest, k, v =>
      if k = k' then (k, v) :: rest else (k', v') :: ains rest k v

/-- Delete from an association list, mirroring a Go map `delete`. -/
def adel {α : Type} : List (String × α) → String → List (String × α)
  | [], _ => []
  | (k', v) :: rest, k => if k' = k then adel rest k else (k', v) :: adel rest k

theorem alookup_ains {α : Type} (l : List (String × α)) (k k' : String) (v : α) :
    alookup (ains l k v) k' = if k' = k then some v else alookup l k' := by
  induction l with
  | nil => by_cases h : k' = k <;> simp [ains, alookup, h]
  | cons hd tl ih =>
    obtain ⟨k0, v0⟩ := hd
    by_cases hk : k = k0
    · subst hk
      by_cases h : k' = k <;> simp [ains, alookup, h]
    · by_cases h : k' = k0
      · subst h
        have : ¬ k' = k := fun e => hk e.symm
        simp [ains, alookup, hk, this]
      · simp [ains, alookup, hk, h, ih]

theorem alookup_adel {α : Type} (l : List (String × α)) (k k' : String) :
    alookup (adel l k) k' = if k' = k then none else alookup l k' := by
  induction l with
  | nil => by_cases h : k' = k <;> simp [adel, alookup, h]
  | cons hd tl ih =>
    obtain ⟨k0, v0⟩ := hd
    by_cases h0 : k0 = k
    · subst h0
      by_cases h : k' = k0
      · subst h
        simp [adel, alookup, ih]
      · simp [adel, alookup, h, ih]
    · by_cases h : k' = k0
      · subst h
        have hne : ¬ k' = k := fun e => h0 (e ▸ rfl)
        simp [adel, alookup, h0, hne]
      · simp [adel, alookup, h0, h, ih]

theorem alookup_mem {α : Type} {l : List (String × α)} {k : String} {v : α}
    (h : alookup l k = some v) : (k, v) ∈ l := by
  induction l with
  | nil => simp [alookup] at h
  | cons hd tl ih =>
    obtain ⟨k0, v0⟩ := hd
    by_cases hk : k = k0
    · subst hk
      simp [alookup] at h
      simp [h]
    · simp [alookup, hk] at h
      exact List.mem_cons_of_mem _ (ih h)

/-! ### ASCII string helpers modelling Go's `strings` package -/

/-- Whether `pat` occurs at the head of `s` (over character lists). -/
def leadsWith : List Char → List Char → Bool
  | [], _ => true
  | _ :: _, [] => false
  | p :: ps, c :: cs => p = c && leadsWith ps cs

/-- Whether `pat` occurs anywhere in `s` (over character lists). -/
def hasSubCL (pat : List Char) : List Char → Bool
  | [] => leadsWith pat []
  | c :: cs => leadsWith pat (c :: cs) || hasSubCL pat cs

/-- Go `strings.Contains s pat` (ASCII model). -/
def containsSubstr (s pat : String) : Bool :=
  hasSubCL pat.data s.data

/-- Go `strings.ToLower` (ASCII model; agrees with Go on ASCII input). -/
def lowerAscii (s : String) : String := String.mk (s.data.map Char.toLower)

/-- Go `strings.ToUpper` (ASCII model; agrees with Go on ASCII input). -/
def upperAscii (s : String) : String := String.mk (s.data.map Char.toUpper)

/-- Go `strings.TrimSpace` (ASCII whitespace model). -/
def trimStr (s : String) : String :=
  String.mk
    (((s.data.dropWhile Char.isWhitespace).reverse.dropWhile Char.isWhitespace).reverse)

/-- Go `strings.ToLower(strings.TrimSpace s)` as used for name comparisons. -/
def normName (s : String) : String := lowerAscii (trimStr s)

/-- Go's lexicographic string comparison `s < t`, over character lists.
Codepoint order coincides with Go's byte-wise UTF-8 order. -/
def charListLt : List Char → List Char → Bool
  | [], [] => false
  | [], _ :: _ => true
  | _ :: _, [] => false
  | a :: as, b :: bs =>
      if a.toNat < b.toNat then true
      else if b.toNat < a.toNat then false
      else charListLt as bs

/-- Go `s < t` on strings. -/
def strLt (a b : String) : Bool := charListLt a.data b.data

theorem charListLt_cons (a b : Char) (as bs : List Char) :
    charListLt (a :: as) (b :: bs)
      = (if a.toNat < b.toNat then true
         else if b.toNat < a.toNat then false
         else charListLt as bs) := rfl

theorem charListLt_irrefl : ∀ l : List Char, charListLt l l = false
  | [] => rfl
  | a :: as => by
      rw [charListLt_cons, if_neg (lt_irrefl _), if_neg (lt_irrefl _)]
      exact charListLt_irrefl as

theorem charListLt_asymm : ∀ {l m : List Char},
    charListLt l m = true → charListLt m l = false
  | [], [], h => by simp [charListLt] at h
  | [], _ :: _, _ => rfl
  | _ :: _, [], h => by simp [charListLt] at h
  | a :: as, b :: bs, h => by
      rw [charListLt_cons] at h
      rw [charListLt_cons]
      by_cases h1 : a.toNat < b.toNat
      · have h2 : ¬ b.toNat < a.toNat := by omega
        rw [if_neg h2, if_pos h1]
      · by_cases h2 : b.toNat < a.toNat
        · rw [if_neg h1, if_pos h2] at h
          exact absurd h (by simp)
        · rw [if_neg h1, if_neg h2] at h
          rw [if_neg h2, if_neg h1]
          exact charListLt_asymm h

theorem charListLt_trans : ∀ {a b c : List Char},
    charListLt a b = true → charListLt b c = true → charListLt a c = true
  | [], _, _ :: _, _, _ => rfl
  | [], b, [], _, h2 => by cases b <;> simp [charListLt] at h2
  | _ :: _, [], _, h1, _ => by simp [charListLt] at h1
  | _ :: _, _ :: _, [], _, h2 => by simp [charListLt] at h2
  | a :: as, b :: bs, c :: cs, h1, h2 => by
      rw [charListLt_cons] at h1 h2
      rw [charListLt_cons]
      by_cases hab : a.toNat < b.toNat
      · by_cases hbc : b.toNat < c.toNat
        · rw [if_pos (by omega : a.toNat < c.toNat)]
        · by_cases hcb : c.toNat < b.toNat
          · rw [if_neg hbc, if_pos hcb] at h2
            exact absurd h2 (by simp)
          · rw [if_pos (by omega : a.toNat < c.toNat)]
      · by_cases hba : b.toNat < a.toNat
        · rw [if_neg hab, if_pos hba] at h1
          exact absurd h1 (by simp)
        · rw [if_neg hab, if_neg hba] at h1
          by_cases hbc : b.toNat < c.toNat
          · rw [if_pos (by omega : a.toNat < c.toNat)]
          · by_cases hcb : c.toNat < b.toNat
            · rw [if_neg hbc, if_pos hcb] at h2
              exact absurd h2 (by simp)
            · rw [if_neg hbc, if_neg hcb] at h2
              rw [if_neg (by omega : ¬ a.toNat < c.toNat),
                if_neg (by omega : ¬ c.toNat < a.toNat)]
              exact charListLt_trans h1 h2

theorem charListLt_eq_of_nlt : ∀ {a b : List Char},
    charListLt a b = false → charListLt b a = false → a = b
  | [], [], _, _ => rfl
  | [], _ :: _, h1, _ => by simp [charListLt] at h1
  | _ :: _, [], _, h2 => by simp [charListLt] at h2
  | a :: as, b :: bs, h1, h2 => by
      rw [charListLt_cons] at h1 h2
      by_cases hab : a.toNat < b.toNat
      · rw [if_pos hab] at h1
        exact absurd h1 (by simp)
      · by_cases hba : b.toNat < a.toNat
        · rw [if_pos hba] at h2
          exact absurd h2 (by simp)
        · have habn : a.toNat = b.toNat := by omega
          have hc : a = b := Char.ext (UInt32.toNat.inj habn)
          rw [if_neg hab, if_neg hba] at h1
          rw [if_neg hba, if_neg hab] at h2
          rw [hc, charListLt_eq_of_nlt h1 h2]

theorem strEq_of_data {a b : String} (h : a.data = b.data) : a = b := by
  cases a
  cases b
  rw [show (String.mk _).data = _ from rfl] at h
  exact congrArg String.mk h

theorem strLt_irrefl (a : String) : strLt a a = false := charListLt_irrefl a.data

theorem strLt_asymm {a b : String} (h : strLt a b = true) : strLt b a = false :=
  charListLt_asymm h

theorem strLt_trans {a b c : String} (h1 : strLt a b = true)
    (h2 : strLt b c = true) : strLt a c = true :=
  charListLt_trans h1 h2

theorem strLt_eq_of_nlt {a b : String} (h1 : strLt a b = false)
    (h2 : strLt b a = false) : a = b :=
  strEq_of_data (charListLt_eq_of_nlt h1 h2)

/-! ### Data model: proxy descriptors -/

/-- Embedding of `models.ProxyConfig` restricted to the fields the checker
and the selector read. -/
structure Proxy where
  protocol : String
  server : String
  port : Nat
  name : String
  subName : String
  uuid : String
  password : String
  sourceLine : String
  stableID : String
  index : Nat
deriving DecidableEq

/-- Modelled from the spec: `models.ProxyConfig.GenerateStableID` is not under
`src/` (only its tests are).  Per the spec it is a deterministic,
collision-resistant hash over the transport-critical fields; it is idealised
here as an injective tagged concatenation of those fields. -/
def generateStableID (p : Proxy) : String :=
  "sid|" ++ p.protocol ++ "|" ++ p.server ++ "|" ++ toString p.port ++ "|" ++
    p.uuid ++ "|" ++ p.password

/-- The in-place `proxy.StableID = proxy.GenerateStableID()` fill-in performed
by the checker and the selector when the field is empty. -/
def effProxy (p : Proxy) : Proxy :=
  if p.stableID = "" then { p with stableID := generateStableID p } else p

/-! ### Selector data model (`stableTopBLSelector` in the web package) -/

/-- Embedding of `rankedProxy`. -/
structure RankedProxy where
  proxy : Proxy
  latency : Nat
  key : String
deriving DecidableEq

/-- Embedding of `keyStatusCounts`. -/
structure KeyStatusCounts where
  online : Nat
  offline : Nat
  na : Nat
deriving DecidableEq

/-- Embedding of `activeEntry`. -/
structure ActiveEntry where
  item : RankedProxy
  addedAt : Nat
  badStreak : Nat
deriving DecidableEq

/-- Selector constants, in nanoseconds where the Go source uses durations. -/
def topBLBatchInterval : Nat := 7200000000000

def topBLMinHold : Nat := 7200000000000

def topBLReplaceMinMs : Nat := 50000000

def topBLBadStreakLimit : Nat := 2

def topBLQuota : Nat := 10

def topCIDRQuota : Nat := 10

/-- Embedding of `isBetterCandidate`: the strict comparison used for ranking,
dedup tie-breaking and eviction (latency, then lower-cased trimmed name,
then stable identity). -/
def isBetterCandidate (l r : RankedProxy) : Bool :=
  if l.latency ≠ r.latency then decide (l.latency < r.latency)
  else
    let ln := normName l.proxy.name
    let rn := normName r.proxy.name
    if ln ≠ rn then strLt ln rn
    else strLt l.proxy.stableID r.proxy.stableID

/-- The comparison key `isBetterCandidate` actually orders by. -/
def candCmpKey (r : RankedProxy) : Nat × String × String :=
  (r.latency, normName r.proxy.name, r.proxy.stableID)

theorem isBetterCandidate_iff (l r : RankedProxy) :
    isBetterCandidate l r = true ↔
      (l.latency < r.latency ∨
        (l.latency = r.latency ∧
          (strLt (normName l.proxy.name) (normName r.proxy.name) = true ∨
            (normName l.proxy.name = normName r.proxy.name ∧
              strLt l.proxy.stableID r.proxy.stableID = true)))) := by
  by_cases h1 : l.latency = r.latency
  · by_cases h2 : normName l.proxy.name = normName r.proxy.name
    · simp [isBetterCandidate, h1, h2, strLt_irrefl]
    · simp [isBetterCandidate, h1, h2]
  · have h1' : ¬ l.latency < r.latency → isBetterCandidate l r = false := by
      intro hlt
      simp [isBetterCandidate, h1, hlt]
    constructor
    · intro h
      by_cases hlt : l.latency < r.latency
      · exact Or.inl hlt
      · rw [h1' hlt] at h
        exact absurd h (by simp)
    · rintro (hlt | ⟨he, _⟩)
      · simp [isBetterCandidate, h1, hlt]
      · exact absurd he h1

theorem strLt_ne {a b : String} (h : strLt a b = true) : a ≠ b := fun e => by
  rw [e] at h
  exact absurd h (by simp [strLt_irrefl])

theorem better_irrefl (r : RankedProxy) : isBetterCandidate r r = false := by
  rw [Bool.eq_false_iff]
  intro h
  rw [isBetterCandidate_iff] at h
  rcases h with h | ⟨_, h | ⟨_, h⟩⟩
  · exact lt_irrefl _ h
  · exact absurd h (by simp [strLt_irrefl])
  · exact absurd h (by simp [strLt_irrefl])

theorem better_asymm {l r : RankedProxy} (h : isBetterCandidate l r = true) :
    isBetterCandidate r l = false := by
  rw [Bool.eq_false_iff]
  intro h'
  rw [isBetterCandidate_iff] at h h'
  rcases h with h | ⟨he, h⟩
  · rcases h' with h' | ⟨he', _⟩
    · exact lt_asymm h h'
    · exact absurd he'.symm (ne_of_lt h)
  · rcases h' with h' | ⟨_, h'⟩
    · exact absurd he (ne_of_gt h')
    · rcases h with h | ⟨hn, h⟩
      · rcases h' with h' | ⟨hn', _⟩
        · exact absurd (strLt_trans h h') (by simp [strLt_irrefl])
        · exact absurd hn'.symm (strLt_ne h)
      · rcases h' with h' | ⟨_, h'⟩
        · exact absurd hn.symm (strLt_ne h')
        · exact absurd (strLt_trans h h') (by simp [strLt_irrefl])

theorem better_trans {a b c : RankedProxy} (h1 : isBetterCandidate a b = true)
    (h2 : isBetterCandidate b c = true) : isBetterCandidate a c = true := by
  rw [isBetterCandidate_iff] at h1 h2 ⊢
  rcases h1 with h1 | ⟨e1, h1⟩
  · rcases h2 with h2 | ⟨e2, _⟩
    · exact Or.inl (lt_trans h1 h2)
    · exact Or.inl (e2 ▸ h1)
  · rcases h2 with h2 | ⟨e2, h2⟩
    · exact Or.inl (e1 ▸ h2)
    · refine Or.inr ⟨e1.trans e2, ?_⟩
      rcases h1 with h1 | ⟨n1, h1⟩
      · rcases h2 with h2 | ⟨n2, _⟩
        · exact Or.inl (strLt_trans h1 h2)
        · exact Or.inl (n2 ▸ h1)
      · rcases h2 with h2 | ⟨n2, h2⟩
        · exact Or.inl (n1 ▸ h2)
        · exact Or.inr ⟨n1.trans n2, strLt_trans h1 h2⟩

theorem better_tie {l r : RankedProxy} (h1 : isBetterCandidate l r = false)
    (h2 : isBetterCandidate r l = false) : candCmpKey l = candCmpKey r := by
  have n1 : ¬ isBetterCandidate l r = true := by simp [h1]
  have n2 : ¬ isBetterCandidate r l = true := by simp [h2]
  rw [isBetterCandidate_iff] at n1 n2
  have hlat : l.latency = r.latency := by
    rcases lt_trichotomy l.latency r.latency with h | h | h
    · exact absurd (Or.inl h) n1
    · exact h
    · exact absurd (Or.inl h) n2
  have hname : normName l.proxy.name = normName r.proxy.name := by
    cases hlr : strLt (normName l.proxy.name) (normName r.proxy.name) with
    | true => exact absurd (Or.inr ⟨hlat, Or.inl hlr⟩) n1
    | false =>
      cases hrl : strLt (normName r.proxy.name) (normName l.proxy.name) with
      | true => exact absurd (Or.inr ⟨hlat.symm, Or.inl hrl⟩) n2
      | false => exact strLt_eq_of_nlt hlr hrl
  have hid : l.proxy.stableID = r.proxy.stableID := by
    cases hlr : strLt l.proxy.stableID r.proxy.stableID with
    | true => exact absurd (Or.inr ⟨hlat, Or.inr ⟨hname, hlr⟩⟩) n1
    | false =>
      cases hrl : strLt r.proxy.stableID l.proxy.stableID with
      | true => exact absurd (Or.inr ⟨hlat.symm, Or.inr ⟨hname.symm, hrl⟩⟩) n2
      | false => exact strLt_eq_of_nlt hlr hrl
  simp [candCmpKey, hlat, hname, hid]

theorem better_trichotomy {l r : RankedProxy} (h : candCmpKey l ≠ candCmpKey r) :
    (isBetterCandidate l r = true ∧ isBetterCandidate r l = false) ∨
      (isBetterCandidate l r = false ∧ isBetterCandidate r l = true) := by
  cases hl : isBetterCandidate l r with
  | true => exact Or.inl ⟨rfl, better_asymm hl⟩
  | false =>
    cases hr : isBetterCandidate r l with
    | true => exact Or.inr ⟨rfl, rfl⟩
    | false => exact absurd (better_tie hl hr) h

/-! ### Candidate classification and dedup (`selectTopBLAndCIDRByLatency`) -/

/-- Embedding of `dedupKey`. -/
def dedupKey (p : Proxy) : String :=
  let protocol := lowerAscii (trimStr p.protocol)
  if trimStr p.stableID ≠ "" then protocol ++ "|stable|" ++ trimStr p.stableID
  else if trimStr p.uuid ≠ "" then protocol ++ "|uuid|" ++ trimStr p.uuid
  else if trimStr p.password ≠ "" then protocol ++ "|password|" ++ trimStr p.password
  else protocol ++ "|name|" ++ lowerAscii (trimStr p.name)

/-- Embedding of `web.sanitizeConfig` (Go's `ToValidUTF8` is the identity on
the always-valid Lean strings): strip control characters, then trim. -/
def sanitizeConfig (s : String) : String :=
  if s = "" then ""
  else trimStr (String.mk (s.data.filter (fun c => 32 ≤ c.toNat)))

/-- Whether the upper-cased display name carries the "BL" bucket marker. -/
def taggedBL (p : Proxy) : Bool := containsSubstr (upperAscii p.name) "BL"

/-- Whether the upper-cased display name carries the "CIDR" bucket marker. -/
def taggedCIDR (p : Proxy) : Bool := containsSubstr (upperAscii p.name) "CIDR"

/-- A proxy that survives the filter step of `selectTopBLAndCIDRByLatency`:
non-blank source representation and at least one bucket marker. -/
def consideredCandidate (p : Proxy) : Bool :=
  trimStr p.sourceLine ≠ "" && (taggedBL p || taggedCIDR p)

/-- The status-lookup callback (`GetProxyStatusByStableID`): `none` models a
non-nil Go error, `some (online, latency)` a successful lookup. -/
abbrev StatusFn := String → Option (Bool × Nat)

def zeroCounts : KeyStatusCounts := ⟨0, 0, 0⟩

def bumpNA (m : List (String × KeyStatusCounts)) (k : String) :
    List (String × KeyStatusCounts) :=
  let st := (alookup m k).getD zeroCounts
  ains m k { st with na := st.na + 1 }

def bumpOffline (m : List (String × KeyStatusCounts)) (k : String) :
    List (String × KeyStatusCounts) :=
  let st := (alookup m k).getD zeroCounts
  ains m k { st with offline := st.offline + 1 }

def bumpOnline (m : List (String × KeyStatusCounts)) (k : String) :
    List (String × KeyStatusCounts) :=
  let st := (alookup m k).getD zeroCounts
  ains m k { st with online := st.online + 1 }

/-- Accumulator of the classification loop of `selectTopBLAndCIDRByLatency`. -/
structure ScanState where
  totalBL : Nat
  naCount : Nat
  onlineCount : Nat
  offlineCount : Nat
  keyStates : List (String × KeyStatusCounts)
  uniqueByKey : List (String × RankedProxy)

/-- One iteration of the classification loop: filter by marker and source
line, fill in the stable identity, classify by status, and keep the
best-ranked candidate per dedup key. -/
def scanStep (statusFn : StatusFn) (st : ScanState) (q : Proxy) : ScanState :=
  if trimStr q.sourceLine = "" then st
  else if ¬ (taggedBL q || taggedCIDR q) then st
  else
    let p := effProxy q
    let key := dedupKey p
    let st1 := { st with totalBL := st.totalBL + 1 }
    match statusFn p.stableID with
    | none =>
        { st1 with naCount := st1.naCount + 1, keyStates := bumpNA st1.keyStates key }
    | some (online, latency) =>
        if online = false then
          { st1 with offlineCount := st1.offlineCount + 1,
                     keyStates := bumpOffline st1.keyStates key }
        else
          let st2 := { st1 with onlineCount := st1.onlineCount + 1,
                                keyStates := bumpOnline st1.keyStates key }
          let candidate : RankedProxy := ⟨p, latency, key⟩
          match alookup st2.uniqueByKey key with
          | some existing =>
              if isBetterCandidate candidate existing then
                { st2 with uniqueByKey := ains st2.uniqueByKey key candidate }
              else st2
          | none => { st2 with uniqueByKey := ains st2.uniqueByKey key candidate }

/-- The non-strict order used to model `sort.Slice(..., isBetterCandidate)`:
a sorted output is exactly one in which no later element is strictly better
than an earlier one. -/
def candLE (a b : RankedProxy) : Prop := isBetterCandidate b a = false

instance : DecidableRel candLE := fun a b =>
  inferInstanceAs (Decidable (isBetterCandidate b a = false))

instance : IsTotal RankedProxy candLE where
  total a b := by
    cases h : isBetterCandidate b a with
    | false => exact Or.inl h
    | true => exact Or.inr (better_asymm h)

theorem better_congr_left {x y : RankedProxy} (h : candCmpKey x = candCmpKey y)
    (z : RankedProxy) : isBetterCandidate x z = isBetterCandidate y z := by
  have h1 : x.latency = y.latency := congrArg Prod.fst h
  have h2 : normName x.proxy.name = normName y.proxy.name :=
    congrArg (fun t => t.2.1) h
  have h3 : x.proxy.stableID = y.proxy.stableID := congrArg (fun t => t.2.2) h
  have hiff : isBetterCandidate x z = true ↔ isBetterCandidate y z = true := by
    rw [isBetterCandidate_iff, isBetterCandidate_iff, h1, h2, h3]
  cases hy : isBetterCandidate y z with
  | true => exact hiff.mpr hy
  | false =>
    rw [Bool.eq_false_iff]
    intro hx
    exact absurd (hiff.mp hx) (by simp [hy])

theorem better_neg_trans {a b c : RankedProxy} (h1 : isBetterCandidate b a = false)
    (h2 : isBetterCandidate c b = false) : isBetterCandidate c a = false := by
  rw [Bool.eq_false_iff]
  intro hca
  by_cases hk : candCmpKey c = candCmpKey b
  · rw [better_congr_left hk a] at hca
    exact absurd hca (by simp [h1])
  · rcases better_trichotomy hk with ⟨h, _⟩ | ⟨_, h⟩
    · exact absurd h (by simp [h2])
    · exact absurd (better_trans h hca) (by simp [h1])

instance : IsTrans RankedProxy candLE where
  trans a b c hab hbc := better_neg_trans hab hbc

/-- Model of `sort.Slice(ranked, isBetterCandidate)`: a stable sort of the
input; Go's unstable sort realises some sorted permutation, and the
adversarially ordered input supplied to this model realises them all. -/
def sortCand (l : List RankedProxy) : List RankedProxy :=
  List.insertionSort candLE l

/-- Accumulator of the quota-selection loop. -/
structure QuotaState where
  selected : List RankedProxy
  selectedKeys : List String
  blCount : Nat
  cidrCount : Nat

/-- Record an admitted candidate (`selectedByKey` insert plus append). -/
def admitItem (qs : QuotaState) (item : RankedProxy) : QuotaState :=
  { qs with selectedKeys := qs.selectedKeys ++ [item.key],
            selected := qs.selected ++ [item] }

/-- The quota-selection walk of `selectTopBLAndCIDRByLatency`: one pass over
the ranked list, admitting up to `blLimit` BL-only and `cidrLimit` CIDR-only
entries; a dual-tagged entry is counted against the bucket with strictly more
remaining quota (ties to BL); the walk stops once both quotas are filled. -/
def quotaWalk (blLimit cidrLimit : Nat) : QuotaState → List RankedProxy → QuotaState
  | qs, [] => qs
  | qs, item :: rest =>
    if qs.blCount ≥ blLimit ∧ qs.cidrCount ≥ cidrLimit then qs
    else if item.key ∈ qs.selectedKeys then quotaWalk blLimit cidrLimit qs rest
    else
      let hasBL := taggedBL item.proxy
      let hasCIDR := taggedCIDR item.proxy
      if ¬ (hasBL || hasCIDR) then quotaWalk blLimit cidrLimit qs rest
      else if hasBL ∧ hasCIDR then
        let blNeed : Int := (blLimit : Int) - (qs.blCount : Int)
        let cidrNeed : Int := (cidrLimit : Int) - (qs.cidrCount : Int)
        if blNeed ≤ 0 ∧ cidrNeed ≤ 0 then quotaWalk blLimit cidrLimit qs rest
        else if cidrNeed > blNeed then
          quotaWalk blLimit cidrLimit
            (admitItem { qs with cidrCount := qs.cidrCount + 1 } item) rest
        else
          quotaWalk blLimit cidrLimit
            (admitItem { qs with blCount := qs.blCount + 1 } item) rest
      else if hasBL then
        if qs.blCount ≥ blLimit then quotaWalk blLimit cidrLimit qs rest
        else
          quotaWalk blLimit cidrLimit
            (admitItem { qs with blCount := qs.blCount + 1 } item) rest
      else
        if qs.cidrCount ≥ cidrLimit then quotaWalk blLimit cidrLimit qs rest
        else
          quotaWalk blLimit cidrLimit
            (admitItem { qs with cidrCount := qs.cidrCount + 1 } item) rest

/-- Embedding of `topSelectionResult`. -/
structure TopSelectionResult where
  proxies : List RankedProxy
  totalBL : Nat
  naCount : Nat
  onlineCount : Nat
  offlineCount : Nat
  keyStates : List (String × KeyStatusCounts)

/-- Embedding of `selectTopBLAndCIDRByLatency` (the Go function clamps
negative limits to zero; the limits are naturals here). -/
def selectTopBLAndCIDRByLatency (proxies : List Proxy) (statusFn : StatusFn)
    (blLimit cidrLimit : Nat) : TopSelectionResult :=
  let scan := proxies.foldl (scanStep statusFn) ⟨0, 0, 0, 0, [], []⟩
  let ranked := sortCand (scan.uniqueByKey.map Prod.snd)
  let sel := quotaWalk blLimit cidrLimit ⟨[], [], 0, 0⟩ ranked
  ⟨sel.selected, scan.totalBL, scan.naCount, scan.onlineCount,
    scan.offlineCount, scan.keyStates⟩

/-! ### EMA smoothing (`applyEMA`) -/

/-- Fuel-driven binary logarithm (structurally recursive so that concrete
instances reduce cheaply): `blog fuel n = ⌊log₂ n⌋` whenever `1 ≤ n ≤ fuel`. -/
def blog (fuel n : Nat) : Nat :=
  match fuel with
  | 0 => 0
  | f + 1 => if n ≤ 1 then 0 else blog f (n / 2) + 1

/-- IEEE-754 double rounding on a dyadic numerator: round `n` to the
nearest-even 53-bit significand.  Because every denominator used below is a
power of two, rounding the numerator to 53 significant bits is exactly the
rounding float64 performs on the value.  Numerators below `2^53` are
exactly representable. -/
def flRound (n : Nat) : Nat :=
  if n < 2 ^ 53 then n
  else
    (if 2 * (n % 2 ^ (blog n n - 52)) > 2 ^ (blog n n - 52) ∨
        (2 * (n % 2 ^ (blog n n - 52)) = 2 ^ (blog n n - 52) ∧
          n / 2 ^ (blog n n - 52) % 2 = 1)
      then n / 2 ^ (blog n n - 52) + 1 else n / 2 ^ (blog n n - 52))
      * 2 ^ (blog n n - 52)

/-- Numerator of the double nearest `0.7` at denominator `2^53`
(`0.7 * 2^53 = 6305039478318694.4` rounds down).  In the source the
coefficient `1.0 - topBLEMAAlpha` is an untyped Go constant expression,
folded exactly to `0.7` before the single conversion to float64. -/
def c7num : Nat := 6305039478318694

/-- Numerator of the double nearest `0.3` at denominator `2^54`
(`0.3 * 2^54 = 5404319552844595.2` rounds down). -/
def c3num : Nat := 5404319552844595

/-- The float64 expression
`time.Duration((1.0-topBLEMAAlpha)*float64(prev) + topBLEMAAlpha*float64(raw))`:
both integer-to-float conversions round to nearest-even, each product and
the sum round to nearest-even (the products live at denominators `2^53` and
`2^54`, the sum at `2^107`), and the duration conversion truncates toward
zero. -/
def emaFloat (p raw : Nat) : Nat :=
  flRound (flRound (c7num * flRound p) * 2 ^ 54
      + flRound (c3num * flRound raw) * 2 ^ 53) / 2 ^ 107

/-- One EMA update for a key: seed to the raw value when there is no prior
entry or the prior entry is nonpositive, otherwise the float64 computation
`0.7*prev + 0.3*raw` truncated to whole nanoseconds. -/
def emaStep (prev : Option Nat) (raw : Nat) : Nat :=
  match prev with
  | none => raw
  | some p => if p = 0 then raw else emaFloat p raw

/-- The update loop of `applyEMA`: fold the EMA map through the candidate
list, replacing each candidate's latency by its smoothed value. -/
def applyEMAList (ema : List (String × Nat)) :
    List RankedProxy → List (String × Nat) × List RankedProxy
  | [] => (ema, [])
  | p :: rest =>
      let e := emaStep (alookup ema p.key) p.latency
      let res := applyEMAList (ains ema p.key e) rest
      (res.1, ⟨p.proxy, e, p.key⟩ :: res.2)

/-- Embedding of `stableTopBLSelector.applyEMA`: update the EMA map and
return the re-sorted smoothed candidate list. -/
def applyEMA (ema : List (String × Nat)) (ps : List RankedProxy) :
    List (String × Nat) × List RankedProxy :=
  let res := applyEMAList ema ps
  (res.1, sortCand res.2)

theorem blog_spec : ∀ (fuel n : Nat), 1 ≤ n → n ≤ fuel →
    2 ^ blog fuel n ≤ n ∧ n < 2 ^ (blog fuel n + 1)
  | 0, n, h1, h2 => by omega
  | f + 1, n, h1, h2 => by
      by_cases hsmall : n ≤ 1
      · have hn : n = 1 := by omega
        subst hn
        simp [blog]
      · have hrec := blog_spec f (n / 2) (by omega) (by omega)
        have hb : blog (f + 1) n = blog f (n / 2) + 1 := by
          simp [blog, hsmall]
        rw [hb]
        rw [pow_succ, pow_succ]
        rw [pow_succ] at hrec
        omega

theorem flRound_small {n : Nat} (h : n < 2 ^ 53) : flRound n = n := by
  unfold flRound
  rw [if_pos h]

/-- Rounding to 53 significant bits moves a numerator by at most one part
in `2^52`: `|flRound n - n| * 2^52 ≤ n`, stated as two Nat inequalities. -/
theorem flRound_close (n : Nat) :
    n * 2 ^ 52 ≤ flRound n * 2 ^ 52 + n ∧
      flRound n * 2 ^ 52 ≤ n * 2 ^ 52 + n := by
  by_cases h : n < 2 ^ 53
  · rw [flRound_small h]
    omega
  · have hge : 2 ^ 53 ≤ n := not_lt.mp h
    have h1 : 1 ≤ n := le_trans (by norm_num) hge
    have hspec := blog_spec n n h1 le_rfl
    have hlog : 53 ≤ blog n n := by
      by_contra hlt
      push_neg at hlt
      have hle : 2 ^ (blog n n + 1) ≤ 2 ^ 53 :=
        Nat.pow_le_pow_right (by norm_num) (by omega)
      exact h (lt_of_lt_of_le hspec.2 hle)
    have hE : 2 ^ (blog n n - 52) * 2 ^ 52 ≤ n := by
      rw [← pow_add]
      have he : blog n n - 52 + 52 = blog n n := by omega
      rw [he]
      exact hspec.1
    have hsplit := Nat.div_add_mod n (2 ^ (blog n n - 52))
    rw [Nat.mul_comm] at hsplit
    have hrem : n % 2 ^ (blog n n - 52) < 2 ^ (blog n n - 52) :=
      Nat.mod_lt _ (Nat.pos_pow_of_pos _ (by norm_num))
    have hfl : flRound n = n / 2 ^ (blog n n - 52) * 2 ^ (blog n n - 52) ∨
        flRound n = n / 2 ^ (blog n n - 52) * 2 ^ (blog n n - 52)
          + 2 ^ (blog n n - 52) := by
      unfold flRound
      rw [if_neg h]
      by_cases hc : 2 * (n % 2 ^ (blog n n - 52)) > 2 ^ (blog n n - 52) ∨
          (2 * (n % 2 ^ (blog n n - 52)) = 2 ^ (blog n n - 52) ∧
            n / 2 ^ (blog n n - 52) % 2 = 1)
      · right
        rw [if_pos hc, add_mul, one_mul]
      · left
        rw [if_neg hc]
    generalize hEg : 2 ^ (blog n n - 52) = E at hE hsplit hrem hfl
    generalize hmg : n / E * E = m at hsplit hfl
    obtain hfl | hfl := hfl <;> omega

/-- The float64 EMA stays within one nanosecond of the exact integer
`(7*prev + 3*raw)/10` for all latencies up to `2^49` ns (about 6.5 days):
three roundings at relative error `2^-52` each, plus the coefficient
perturbations, total well below half a nanosecond before truncation. -/
theorem emaFloat_bounds (p r : Nat) (hp : p ≤ 2 ^ 49) (hr : r ≤ 2 ^ 49) :
    (7 * p + 3 * r) / 10 - 1 ≤ emaFloat p r ∧
      emaFloat p r ≤ (7 * p + 3 * r) / 10 + 1 := by
  have hp53 : p < 2 ^ 53 := lt_of_le_of_lt hp (by norm_num)
  have hr53 : r < 2 ^ 53 := lt_of_le_of_lt hr (by norm_num)
  have hA := flRound_close (c7num * p)
  have hB := flRound_close (c3num * r)
  have hS := flRound_close
    (flRound (c7num * p) * 2 ^ 54 + flRound (c3num * r) * 2 ^ 53)
  have hgoal : emaFloat p r
      = flRound (flRound (c7num * p) * 2 ^ 54 + flRound (c3num * r) * 2 ^ 53)
          / 2 ^ 107 := by
    unfold emaFloat
    rw [flRound_small hp53, flRound_small hr53]
  rw [hgoal]
  simp only [c7num, c3num] at hA hB hS ⊢
  omega

/-! ### Active-set reconciliation (`reconcileActive` and helpers) -/

/-- Embedding of `isSignificantImprovement`: a candidate EMA latency beats
the incumbent's only with an absolute gain of at least 50 ms or, for a
positive incumbent latency, a relative gain of at least 20 % (the Go ratio
test `(cur-cand)/cur >= 0.20` in exact arithmetic is `5*(cur-cand) >= cur`). -/
def isSignificantImprovement (candidate current : Nat) : Bool :=
  if candidate ≥ current then false
  else if current - candidate ≥ topBLReplaceMinMs then true
  else if current = 0 then false
  else decide (5 * (current - candidate) ≥ current)

/-- The filter of `findWorstReplaceable`: an active entry may be replaced
once its minimum hold has passed or its bad streak reached the eviction
limit. -/
def eligibleForReplacement (now : Nat) (e : ActiveEntry) : Bool :=
  decide (now - e.addedAt ≥ topBLMinHold) || decide (e.badStreak ≥ topBLBadStreakLimit)

/-- One iteration of the `findWorstReplaceable` scan. -/
def findWorstStep (now : Nat) (worst : Option (String × ActiveEntry))
    (kv : String × ActiveEntry) : Option (String × ActiveEntry) :=
  if ¬ (eligibleForReplacement now kv.2 = true) then worst
  else
    match worst with
    | none => some kv
    | some (wk, we) =>
        if isBetterCandidate we.item kv.2.item then some kv else some (wk, we)

/-- Embedding of `findWorstReplaceable`: scan the active map for the worst
(eligible) member; the iteration order is the stored association-list
order, modelling Go's unspecified map order. -/
def findWorstReplaceable (now : Nat) (active : List (String × ActiveEntry)) :
    Option (String × ActiveEntry) :=
  active.foldl (findWorstStep now) none

/-- The first-entry-wins `byKey` index built at the top of
`reconcileActive`. -/
def buildByKey (l : List RankedProxy) : List (String × RankedProxy) :=
  l.foldl (fun m r => if (alookup m r.key).isSome then m else ains m r.key r) []

/-- The per-entry update of the bad-streak loop of `reconcileActive`. -/
def streakUpdate (keyStates : List (String × KeyStatusCounts))
    (byKey : List (String × RankedProxy)) (k : String) (e : ActiveEntry) :
    ActiveEntry :=
  let st := (alookup keyStates k).getD zeroCounts
  let streak := if st.online > 0 then 0 else e.badStreak + 1
  let item := (alookup byKey k).getD e.item
  ⟨item, e.addedAt, streak⟩

/-- The bad-streak loop of `reconcileActive`: update every entry, evict
those whose streak reached the limit, and report whether any eviction
raised the emergency flag. -/
def streakPhase (keyStates : List (String × KeyStatusCounts))
    (byKey : List (String × RankedProxy)) :
    List (String × ActiveEntry) → List (String × ActiveEntry) × Bool
  | [] => ([], false)
  | (k, e) :: rest =>
      let e' := streakUpdate keyStates byKey k e
      let res := streakPhase keyStates byKey rest
      if e'.badStreak ≥ topBLBadStreakLimit then (res.1, true)
      else ((k, e') :: res.1, res.2)

/-- The slot-filling loop of `reconcileActive`. -/
def fillPhase (limit now : Nat) :
    List (String × ActiveEntry) → List RankedProxy → List (String × ActiveEntry)
  | act, [] => act
  | act, c :: rest =>
      if act.length ≥ limit then act
      else if (alookup act c.key).isSome then fillPhase limit now act rest
      else fillPhase limit now (ains act c.key ⟨c, now, 0⟩) rest

/-- The hysteresis replacement loop of `reconcileActive`. -/
def replacePhase (now : Nat) :
    List (String × ActiveEntry) → List RankedProxy → List (String × ActiveEntry)
  | act, [] => act
  | act, c :: rest =>
      if (alookup act c.key).isSome then replacePhase now act rest
      else
        match findWorstReplaceable now act with
        | none => act
        | some (wk, we) =>
            if ¬ (isSignificantImprovement c.latency we.item.latency = true) then
              replacePhase now act rest
            else replacePhase now (ains (adel act wk) c.key ⟨c, now, 0⟩) rest

/-- Embedding of `stableTopBLSelector.reconcileActive`. -/
def reconcileActive (active : List (String × ActiveEntry)) (hadEmergency : Bool)
    (limit : Nat) (ranked : List RankedProxy)
    (keyStates : List (String × KeyStatusCounts)) (now : Nat) :
    List (String × ActiveEntry) × Bool :=
  let byKey := buildByKey ranked
  let res := streakPhase keyStates byKey active
  let em := hadEmergency || res.2
  let act2 := fillPhase limit now res.1 ranked
  let act3 := replacePhase now act2 ranked
  (act3, em)

/-- Embedding of `activeRanked`: sort the active items and truncate at the
capacity. -/
def activeRanked (limit : Nat) (active : List (String × ActiveEntry)) :
    List RankedProxy :=
  (sortCand (active.map (fun kv => kv.2.item))).take limit

/-- Embedding of `linksFromRanked`. -/
def linksFromRanked (ranked : List RankedProxy) : List String :=
  ranked.filterMap (fun item =>
    let line := sanitizeConfig item.proxy.sourceLine
    if line = "" then none else some line)

/-! ### The selector state machine (`stableTopBLSelector.Next`) -/

/-- Embedding of `stableTopBLSelector`'s mutable state.  Times are
nanoseconds; the association lists model the Go maps, their order modelling
Go's unspecified map iteration order. -/
structure SelectorState where
  limit : Nat
  emaByKey : List (String × Nat)
  active : List (String × ActiveEntry)
  published : List String
  lastPublished : Nat
  hadEmergency : Bool
deriving DecidableEq

/-- Return value of one `Next` invocation: the link list handed to the
caller together with the selector state left behind. -/
structure NextResult where
  links : List String
  state : SelectorState
deriving DecidableEq

/-- The classification step of `Next` (fixed quotas 10 and 10). -/
def nextSelection (proxies : List Proxy) (statusFn : StatusFn) :
    TopSelectionResult :=
  selectTopBLAndCIDRByLatency proxies statusFn topBLQuota topCIDRQuota

/-- The all-unavailable short-circuit test of `Next`. -/
def nextShortCircuit (s : SelectorState) (sel : TopSelectionResult) : Bool :=
  decide (sel.totalBL > 0) && decide (sel.naCount = sel.totalBL) &&
    decide (s.published ≠ [])

/-- The EMA stage of `Next`. -/
def nextEma (s : SelectorState) (proxies : List Proxy) (statusFn : StatusFn) :
    List (String × Nat) × List RankedProxy :=
  applyEMA s.emaByKey (nextSelection proxies statusFn).proxies

/-- The reconciliation stage of `Next`. -/
def nextReconciled (s : SelectorState) (proxies : List Proxy)
    (statusFn : StatusFn) (now : Nat) : List (String × ActiveEntry) × Bool :=
  reconcileActive s.active s.hadEmergency s.limit
    (nextEma s proxies statusFn).2 (nextSelection proxies statusFn).keyStates now

/-- The proposed link list of `Next`. -/
def nextProposed (s : SelectorState) (proxies : List Proxy)
    (statusFn : StatusFn) (now : Nat) : List String :=
  linksFromRanked (activeRanked s.limit (nextReconciled s proxies statusFn now).1)

/-- Embedding of `stableTopBLSelector.Next`. -/
def nextRun (s : SelectorState) (proxies : List Proxy) (statusFn : StatusFn)
    (now : Nat) : NextResult :=
  let sel := nextSelection proxies statusFn
  if nextShortCircuit s sel then ⟨s.published, s⟩
  else
    let ema' := (nextEma s proxies statusFn).1
    let rec2 := nextReconciled s proxies statusFn now
    let proposed := nextProposed s proxies statusFn now
    if proposed = [] ∧ s.published ≠ [] then
      ⟨s.published,
        { s with emaByKey := ema', active := rec2.1, hadEmergency := rec2.2 }⟩
    else
      let shouldPublish :=
        s.published = [] ∨ now - s.lastPublished ≥ topBLBatchInterval ∨ rec2.2
      if shouldPublish ∧ proposed ≠ [] then
        ⟨proposed,
          { limit := s.limit, emaByKey := ema', active := rec2.1,
            published := proposed, lastPublished := now, hadEmergency := false }⟩
      else
        ⟨s.published,
          { limit := s.limit, emaByKey := ema', active := rec2.1,
            published := s.published, lastPublished := s.lastPublished,
            hadEmergency := false }⟩

/-! ### ProxyChecker embedding (`checker` package) -/

/-- `badLatencyThreshold` (1000 ms) in nanoseconds. -/
def badLatencyThreshold : Nat := 1000000000

/-- Embedding of `metricKeyForProxy` applied after the stable-identity
fill-in:  protocol|server:port|name|subName|stableID. -/
def metricKey (p : Proxy) : String :=
  p.protocol ++ "|" ++ p.server ++ ":" ++ toString p.port ++ "|" ++ p.name ++
    "|" ++ p.subName ++ "|" ++ p.stableID

/-- Modelled from the spec: the `metrics` package (not under `src/`) exports
one status series and one latency series per label 4-tuple
(protocol, server:port, name, subName); the exported stores are keyed here by
that tuple joined with the bars the checker's metric key uses, which is
exactly the reconstruction `ClearMetrics` performs from a metric key whose
fields are bar-free. -/
def labelKey (p : Proxy) : String :=
  p.protocol ++ "|" ++ p.server ++ ":" ++ toString p.port ++ "|" ++ p.name ++
    "|" ++ p.subName

/-- Go `strings.Split(s, "|")` (single-character separator). -/
def splitBarCL : List Char → List Char → List String
  | acc, [] => [String.mk acc.reverse]
  | acc, c :: cs =>
      if c = '|' then String.mk acc.reverse :: splitBarCL [] cs
      else splitBarCL (c :: acc) cs

def splitBar (s : String) : List String := splitBarCL [] s.data

/-- Re-join the first four split parts, the label tuple `ClearMetrics`
reconstructs. -/
def joinBar4 (parts : List String) : String :=
  match parts with
  | a :: b :: c :: d :: _ => a ++ "|" ++ b ++ "|" ++ c ++ "|" ++ d
  | _ => ""

/-- Embedding of `ProxyChecker`'s shared state: proxy list, generation
counter, skip counter, the two `sync.Map` stores, the exported Prometheus
series and the bad-since map. -/
structure CheckerState where
  proxies : List Proxy
  generation : Nat
  generationSkips : Nat
  currentMetrics : List (String × Bool)
  latencyMetrics : List (String × Nat)
  exportedStatus : List (String × Nat)
  exportedLatency : List (String × Nat)
  badSince : List (String × Nat)
deriving DecidableEq

/-- Embedding of `markBad`: record the first bad timestamp only. -/
def markBadMap (m : List (String × Nat)) (k : String) (now : Nat) :
    List (String × Nat) :=
  if (alookup m k).isSome then m else ains m k now

/-- The generation gate evaluated at write time (`isGenerationValid`). -/
def genValid (st : CheckerState) (expected : Nat) (checkGen : Bool) : Bool :=
  !checkGen || decide (st.generation = expected)

/-- Embedding of the `setFailedStatus` closure of `checkProxyInternal`. -/
def setFailedStatus (st : CheckerState) (p : Proxy) (expected : Nat)
    (checkGen : Bool) (now : Nat) : CheckerState :=
  if genValid st expected checkGen = false then
    { st with generationSkips := st.generationSkips + 1 }
  else
    { st with exportedStatus := ains st.exportedStatus (labelKey p) 0,
              currentMetrics := ains st.currentMetrics (metricKey p) false,
              badSince := markBadMap st.badSince (metricKey p) now }

/-- Embedding of the `setFailedLatency` closure of `checkProxyInternal`
(note: on a stale generation it performs no write and does not touch the
skip counter; the failure path's single skip increment happens in
`setFailedStatus`). -/
def setFailedLatency (st : CheckerState) (p : Proxy) (expected : Nat)
    (checkGen : Bool) (now : Nat) : CheckerState :=
  if genValid st expected checkGen = false then st
  else
    { st with exportedLatency := ains st.exportedLatency (labelKey p) 0,
              latencyMetrics := ains st.latencyMetrics (metricKey p) 0,
              badSince := markBadMap st.badSince (metricKey p) now }

/-- The outcome of one probe's network phase: `failed` covers a transport
error and every unsuccessful check, `succeeded` carries the measured
latency.  The network activity itself is I/O outside the embedding. -/
inductive ProbeOutcome where
  | failed
  | succeeded (latency : Nat)
deriving DecidableEq

/-- Embedding of the result-application phase of `checkProxyInternal`: the
stable-identity fill-in, then the generation-gated writes to the status map,
latency map, exported series and bad-since map.  The live generation is the
one stored in `st` at this write step. -/
def applyProbeResult (st : CheckerState) (q : Proxy) (expected : Nat)
    (checkGen : Bool) (outcome : ProbeOutcome) (now : Nat) : CheckerState :=
  let p := effProxy q
  match outcome with
  | .failed =>
      setFailedLatency (setFailedStatus st p expected checkGen now)
        p expected checkGen now
  | .succeeded lat =>
      if genValid st expected checkGen = false then
        { st with generationSkips := st.generationSkips + 1 }
      else
        { st with
            exportedStatus := ains st.exportedStatus (labelKey p) 1,
            exportedLatency := ains st.exportedLatency (labelKey p) lat,
            latencyMetrics := ains st.latencyMetrics (metricKey p) lat,
            currentMetrics := ains st.currentMetrics (metricKey p) true,
            badSince :=
              if lat > badLatencyThreshold then
                markBadMap st.badSince (metricKey p) now
              else adel st.badSince (metricKey p) }

/-- The exported-series deletion `ClearMetrics` performs for one recorded
metric key. -/
def clearExportedForKey (st : CheckerState) (mk : String) : CheckerState :=
  let parts := splitBar mk
  if parts.length ≥ 4 then
    { st with exportedStatus := adel st.exportedStatus (joinBar4 parts),
              exportedLatency := adel st.exportedLatency (joinBar4 parts) }
  else st

/-- Embedding of `ClearMetrics`: walk the recorded status keys deleting the
corresponding exported series, then drop every status and latency entry. -/
def clearMetrics (st : CheckerState) : CheckerState :=
  let st1 := (st.currentMetrics.map Prod.fst).foldl clearExportedForKey st
  { st1 with currentMetrics := [], latencyMetrics := [] }

/-- Embedding of `UpdateProxies`: bump the generation, clear the metric
stores, and swap the proxy list. -/
def updateProxies (st : CheckerState) (newProxies : List Proxy) : CheckerState :=
  let st1 := { st with generation := st.generation + 1 }
  let st2 := clearMetrics st1
  { st2 with proxies := newProxies }

/-- Embedding of `CheckAllProxies` without interleaving: snapshot the list
and generation, apply every probe result under the snapshot generation with
the gate enabled, then swap the skip counter back to zero (it is only
logged).  The probe outcomes are supplied by the environment. -/
def checkAllProxies (st : CheckerState) (outcome : Proxy → ProbeOutcome)
    (now : Nat) : CheckerState :=
  let g := st.generation
  let st1 := st.proxies.foldl
    (fun acc p => applyProbeResult acc p g true (outcome p) now) st
  { st1 with generationSkips := 0 }

/-- Interleaving events on the checker: a probe's write step (issued under
some expected generation, with the gate enabled as `CheckAllProxies` always
does) or a concurrent `UpdateProxies`. -/
inductive CheckerEvent where
  | probe (p : Proxy) (expected : Nat) (outcome : ProbeOutcome) (now : Nat)
  | update (newProxies : List Proxy)

def stepEvent (st : CheckerState) : CheckerEvent → CheckerState
  | .probe p g o now => applyProbeResult st p g true o now
  | .update l => updateProxies st l

def runEvents (st : CheckerState) (es : List CheckerEvent) : CheckerState :=
  es.foldl stepEvent st

/-! ### Checker lemmas: generation bookkeeping -/

theorem setFailedStatus_generation (st : CheckerState) (p : Proxy) (g : Nat)
    (c : Bool) (now : Nat) : (setFailedStatus st p g c now).generation = st.generation := by
  unfold setFailedStatus
  split <;> rfl

theorem setFailedLatency_generation (st : CheckerState) (p : Proxy) (g : Nat)
    (c : Bool) (now : Nat) : (setFailedLatency st p g c now).generation = st.generation := by
  unfold setFailedLatency
  split <;> rfl

theorem applyProbeResult_generation (st : CheckerState) (q : Proxy) (g : Nat)
    (c : Bool) (o : ProbeOutcome) (now : Nat) :
    (applyProbeResult st q g c o now).generation = st.generation := by
  cases o with
  | failed =>
    show (setFailedLatency (setFailedStatus st _ g c now) _ g c now).generation = _
    rw [setFailedLatency_generation, setFailedStatus_generation]
  | succeeded lat =>
    show (if genValid st g c = false then _ else _ : CheckerState).generation = _
    split <;> rfl

theorem clearExportedForKey_fields (st : CheckerState) (mk : String) :
    (clearExportedForKey st mk).proxies = st.proxies ∧
    (clearExportedForKey st mk).generation = st.generation ∧
    (clearExportedForKey st mk).generationSkips = st.generationSkips ∧
    (clearExportedForKey st mk).currentMetrics = st.currentMetrics ∧
    (clearExportedForKey st mk).latencyMetrics = st.latencyMetrics ∧
    (clearExportedForKey st mk).badSince = st.badSince := by
  by_cases h : (splitBar mk).length ≥ 4 <;> simp [clearExportedForKey, h]

theorem clearExported_foldl_fields (keys : List String) (st : CheckerState) :
    (keys.foldl clearExportedForKey st).proxies = st.proxies ∧
    (keys.foldl clearExportedForKey st).generation = st.generation ∧
    (keys.foldl clearExportedForKey st).generationSkips = st.generationSkips ∧
    (keys.foldl clearExportedForKey st).currentMetrics = st.currentMetrics ∧
    (keys.foldl clearExportedForKey st).latencyMetrics = st.latencyMetrics ∧
    (keys.foldl clearExportedForKey st).badSince = st.badSince := by
  induction keys generalizing st with
  | nil => simp [List.foldl]
  | cons mk rest ih =>
    have h1 := clearExportedForKey_fields st mk
    have h2 := ih (clearExportedForKey st mk)
    simp only [List.foldl_cons]
    exact ⟨h2.1.trans h1.1, h2.2.1.trans h1.2.1, h2.2.2.1.trans h1.2.2.1,
      h2.2.2.2.1.trans h1.2.2.2.1, h2.2.2.2.2.1.trans h1.2.2.2.2.1,
      h2.2.2.2.2.2.trans h1.2.2.2.2.2⟩

theorem updateProxies_generation (st : CheckerState) (l : List Proxy) :
    (updateProxies st l).generation = st.generation + 1 := by
  unfold updateProxies clearMetrics
  simp only []
  exact (clearExported_foldl_fields _ _).2.1

/-- Number of `update` events in a trace. -/
def isUpdateEvent : CheckerEvent → Bool
  | .update _ => true
  | .probe _ _ _ _ => false

theorem runEvents_generation (st : CheckerState) (es : List CheckerEvent) :
    (runEvents st es).generation = st.generation + es.countP isUpdateEvent := by
  induction es generalizing st with
  | nil => simp [runEvents]
  | cons e rest ih =>
    have hstep : runEvents st (e :: rest) = runEvents (stepEvent st e) rest := rfl
    rw [hstep, ih]
    cases e with
    | probe p g o now =>
      show (applyProbeResult st p g true o now).generation + _ = _
      rw [applyProbeResult_generation]
      simp [List.countP_cons, isUpdateEvent]
    | update l =>
      show (updateProxies st l).generation + _ = _
      rw [updateProxies_generation]
      simp [List.countP_cons, isUpdateEvent]
      omega

theorem markBadMap_isSome (m : List (String × Nat)) (k : String) (now : Nat) :
    (alookup (markBadMap m k now) k).isSome = true := by
  unfold markBadMap
  by_cases h : (alookup m k).isSome
  · simp [h]
  · simp [h, alookup_ains]

theorem applyProbeResult_stale (st : CheckerState) (q : Proxy) (g : Nat)
    (o : ProbeOutcome) (now : Nat) (h : st.generation ≠ g) :
    applyProbeResult st q g true o now
      = { st with generationSkips := st.generationSkips + 1 } := by
  have hv : genValid st g true = false := by simp [genValid, h]
  cases o with
  | failed =>
    show setFailedLatency (setFailedStatus st _ g true now) _ g true now = _
    have h1 : setFailedStatus st (effProxy q) g true now
        = { st with generationSkips := st.generationSkips + 1 } := by
      simp [setFailedStatus, hv]
    rw [h1]
    have hv2 : genValid { st with generationSkips := st.generationSkips + 1 } g true
        = false := by simp [genValid, h]
    simp [setFailedLatency, hv2]
  | succeeded lat =>
    show (if genValid st g true = false then _ else _ : CheckerState) = _
    simp [hv]

theorem applyProbeResult_valid_failed (st : CheckerState) (q : Proxy) (now : Nat) :
    (applyProbeResult st q st.generation true .failed now).generationSkips
        = st.generationSkips ∧
    alookup (applyProbeResult st q st.generation true .failed now).currentMetrics
        (metricKey (effProxy q)) = some false ∧
    alookup (applyProbeResult st q st.generation true .failed now).latencyMetrics
        (metricKey (effProxy q)) = some 0 ∧
    (alookup (applyProbeResult st q st.generation true .failed now).badSince
        (metricKey (effProxy q))).isSome = true := by
  have hv : genValid st st.generation true = true := by simp [genValid]
  have happ : applyProbeResult st q st.generation true .failed now
      = setFailedLatency (setFailedStatus st (effProxy q) st.generation true now)
          (effProxy q) st.generation true now := rfl
  rw [happ]
  have h1 : setFailedStatus st (effProxy q) st.generation true now
      = { st with exportedStatus := ains st.exportedStatus (labelKey (effProxy q)) 0,
                  currentMetrics := ains st.currentMetrics (metricKey (effProxy q)) false,
                  badSince := markBadMap st.badSince (metricKey (effProxy q)) now } := by
    simp [setFailedStatus, hv]
  rw [h1]
  have hv2 : genValid { st with
      exportedStatus := ains st.exportedStatus (labelKey (effProxy q)) 0,
      currentMetrics := ains st.currentMetrics (metricKey (effProxy q)) false,
      badSince := markBadMap st.badSince (metricKey (effProxy q)) now }
      st.generation true = true := by simp [genValid]
  simp [setFailedLatency, hv2, alookup_ains, markBadMap_isSome]

theorem applyProbeResult_valid_succeeded (st : CheckerState) (q : Proxy)
    (lat now : Nat) :
    (applyProbeResult st q st.generation true (.succeeded lat) now).generationSkips
        = st.generationSkips ∧
    alookup (applyProbeResult st q st.generation true (.succeeded lat) now).currentMetrics
        (metricKey (effProxy q)) = some true ∧
    alookup (applyProbeResult st q st.generation true (.succeeded lat) now).latencyMetrics
        (metricKey (effProxy q)) = some lat ∧
    (badLatencyThreshold < lat →
      (alookup (applyProbeResult st q st.generation true (.succeeded lat) now).badSince
          (metricKey (effProxy q))).isSome = true) ∧
    (¬ badLatencyThreshold < lat →
      alookup (applyProbeResult st q st.generation true (.succeeded lat) now).badSince
          (metricKey (effProxy q)) = none) := by
  have hv : genValid st st.generation true = true := by simp [genValid]
  by_cases hb : badLatencyThreshold < lat <;>
    simp [applyProbeResult, hv, hb, alookup_ains, markBadMap_isSome, alookup_adel]

/-- C1: a probe result issued under batch generation `g` (the generation
check is enabled exactly as `CheckAllProxies` enables it) is applied to the
shared state only when the live generation still equals `g` at write time.
On a mismatch the whole result is dropped — status map, latency map and
bad-since map all stay untouched — and the skip counter increments by
exactly one; on a match the writes for the outcome land in the status and
latency maps with the bad-since bookkeeping, and the skip counter does not
move.  After any interleaved `UpdateProxies`, every probe of the old batch
is dropped this way. -/
theorem probe_generation_gate :
    (∀ (st : CheckerState) (q : Proxy) (g : Nat) (o : ProbeOutcome) (now : Nat),
        st.generation ≠ g →
        applyProbeResult st q g true o now
          = { st with generationSkips := st.generationSkips + 1 }) ∧
    (∀ (st : CheckerState) (q : Proxy) (now : Nat),
        (applyProbeResult st q st.generation true .failed now).generationSkips
            = st.generationSkips ∧
        alookup (applyProbeResult st q st.generation true .failed now).currentMetrics
            (metricKey (effProxy q)) = some false ∧
        alookup (applyProbeResult st q st.generation true .failed now).latencyMetrics
            (metricKey (effProxy q)) = some 0 ∧
        (alookup (applyProbeResult st q st.generation true .failed now).badSince
            (metricKey (effProxy q))).isSome = true) ∧
    (∀ (st : CheckerState) (q : Proxy) (lat now : Nat),
        alookup (applyProbeResult st q st.generation true (.succeeded lat) now).currentMetrics
            (metricKey (effProxy q)) = some true ∧
        alookup (applyProbeResult st q st.generation true (.succeeded lat) now).latencyMetrics
            (metricKey (effProxy q)) = some lat) ∧
    (∀ (st : CheckerState) (es1 es2 : List CheckerEvent) (l : List Proxy)
        (q : Proxy) (o : ProbeOutcome) (now : Nat),
        stepEvent (runEvents st (es1 ++ CheckerEvent.update l :: es2))
            (CheckerEvent.probe q st.generation o now)
          = { runEvents st (es1 ++ CheckerEvent.update l :: es2) with
              generationSkips :=
                (runEvents st (es1 ++ CheckerEvent.update l :: es2)).generationSkips + 1 }) := by
  refine ⟨applyProbeResult_stale, applyProbeResult_valid_failed, ?_, ?_⟩
  · intro st q lat now
    have h := applyProbeResult_valid_succeeded st q lat now
    exact ⟨h.2.1, h.2.2.1⟩
  · intro st es1 es2 l q o now
    have hgen : (runEvents st (es1 ++ CheckerEvent.update l :: es2)).generation
        ≠ st.generation := by
      rw [runEvents_generation]
      have : 0 < (es1 ++ CheckerEvent.update l :: es2).countP isUpdateEvent := by
        rw [List.countP_pos_iff]
        exact ⟨CheckerEvent.update l, by simp, by simp [isUpdateEvent]⟩
      omega
    exact applyProbeResult_stale _ q st.generation o now hgen

def demoProxy : Proxy := ⟨"vless", "h", 443, "p", "sub", "u", "", "ln", "sid", 0⟩

def demoChecker : CheckerState := ⟨[demoProxy], 5, 0, [], [], [], [], []⟩

theorem probe_generation_gate_witness :
    applyProbeResult demoChecker demoProxy 4 true .failed 7
      = { demoChecker with generationSkips := demoChecker.generationSkips + 1 } :=
  probe_generation_gate.1 demoChecker demoProxy 4 .failed 7 (by decide)

/-- Whether deleting the exported series for recorded key `mk` removes the
label key `k`. -/
def clearsLabel (k mk : String) : Bool :=
  decide ((splitBar mk).length ≥ 4) && decide (joinBar4 (splitBar mk) = k)

theorem clearExported_foldl_lookup (keys : List String) (st : CheckerState)
    (k : String) :
    alookup (keys.foldl clearExportedForKey st).exportedStatus k
        = (if keys.any (clearsLabel k) then none else alookup st.exportedStatus k) ∧
    alookup (keys.foldl clearExportedForKey st).exportedLatency k
        = (if keys.any (clearsLabel k) then none else alookup st.exportedLatency k) := by
  induction keys generalizing st with
  | nil => simp
  | cons mk rest ih =>
    have hstep : (mk :: rest).foldl clearExportedForKey st
        = rest.foldl clearExportedForKey (clearExportedForKey st mk) := rfl
    rw [hstep]
    have hres := ih (clearExportedForKey st mk)
    by_cases h4 : (splitBar mk).length ≥ 4
    · have hck : clearExportedForKey st mk
          = { st with exportedStatus := adel st.exportedStatus (joinBar4 (splitBar mk)),
                      exportedLatency := adel st.exportedLatency (joinBar4 (splitBar mk)) } := by
        simp [clearExportedForKey, h4]
      rw [hck] at hres
      rw [hck]
      by_cases hj : joinBar4 (splitBar mk) = k
      · have hcl : clearsLabel k mk = true := by simp [clearsLabel, h4, hj]
        constructor
        · rw [hres.1]
          by_cases ha : rest.any (clearsLabel k) <;>
            simp [ha, hcl, alookup_adel, hj]
        · rw [hres.2]
          by_cases ha : rest.any (clearsLabel k) <;>
            simp [ha, hcl, alookup_adel, hj]
      · have hcl : clearsLabel k mk = false := by
          simp [clearsLabel, h4]
          intro he
          exact absurd he hj
        have hne : ¬ k = joinBar4 (splitBar mk) := fun e => hj e.symm
        constructor
        · rw [hres.1]
          by_cases ha : rest.any (clearsLabel k) <;>
            simp [ha, hcl, alookup_adel, hne]
        · rw [hres.2]
          by_cases ha : rest.any (clearsLabel k) <;>
            simp [ha, hcl, alookup_adel, hne]
    · have hck : clearExportedForKey st mk = st := by
        simp [clearExportedForKey, h4]
      rw [hck] at hres
      rw [hck]
      have hcl : clearsLabel k mk = false := by simp [clearsLabel, h4]
      by_cases ha : rest.any (clearsLabel k) <;>
        simp [ha, hcl, hres.1, hres.2]

theorem updateProxies_eq (st : CheckerState) (l : List Proxy) :
    updateProxies st l
      = { proxies := l,
          generation := st.generation + 1,
          generationSkips := st.generationSkips,
          currentMetrics := [],
          latencyMetrics := [],
          exportedStatus :=
            ((st.currentMetrics.map Prod.fst).foldl clearExportedForKey
              { st with generation := st.generation + 1 }).exportedStatus,
          exportedLatency :=
            ((st.currentMetrics.map Prod.fst).foldl clearExportedForKey
              { st with generation := st.generation + 1 }).exportedLatency,
          badSince := st.badSince } := by
  have hf := clearExported_foldl_fields (st.currentMetrics.map Prod.fst)
    { st with generation := st.generation + 1 }
  unfold updateProxies clearMetrics
  simp only []
  rw [CheckerState.mk.injEq]
  exact ⟨rfl, hf.2.1, hf.2.2.1, rfl, rfl, rfl, rfl, hf.2.2.2.2.2⟩

/-- The foldl in `clearExportedForKey` leaves the exported stores of the
pre-bump and post-bump states in the same relation (it only reads the key
list passed in). -/
theorem updateProxies_exported_none (st : CheckerState) (l : List Proxy)
    (k : String)
    (hs : alookup st.exportedStatus k ≠ none →
      (st.currentMetrics.map Prod.fst).any (clearsLabel k) = true)
    (hl : alookup st.exportedLatency k ≠ none →
      (st.currentMetrics.map Prod.fst).any (clearsLabel k) = true) :
    alookup (updateProxies st l).exportedStatus k = none ∧
    alookup (updateProxies st l).exportedLatency k = none := by
  rw [updateProxies_eq]
  have hres := clearExported_foldl_lookup (st.currentMetrics.map Prod.fst)
    { st with generation := st.generation + 1 } k
  constructor
  · rw [hres.1]
    by_cases ha : (st.currentMetrics.map Prod.fst).any (clearsLabel k)
    · simp [ha]
    · simp [ha]
      cases he : alookup st.exportedStatus k with
      | none => rfl
      | some v => exact absurd (hs (by simp [he])) ha
  · rw [hres.2]
    by_cases ha : (st.currentMetrics.map Prod.fst).any (clearsLabel k)
    · simp [ha]
    · simp [ha]
      cases he : alookup st.exportedLatency k with
      | none => rfl
      | some v => exact absurd (hl (by simp [he])) ha

/-- C7 (amended): `UpdateProxies(newList)` increments the generation counter
by exactly one, clears every RuntimeState entry (the status and latency
maps), and replaces the proxy list with `newList`; bad-since entries are NOT
cleared.  Exported-metric entries are cleared only insofar as their label
keys are reconstructable from the recorded status keys: whenever every live
exported entry under a label key is matched by the rejoin of the first four
bar-separated fields of some recorded status key, those exported lookups are
`none` after the update.  (The counterexample shows the reconstruction fail:
a label value containing `|` makes the recorded status key split into more
than the expected fields, and that exported entry survives the update.)  No
operation other than `UpdateProxies` writes the generation counter: a
probe-result application never changes it, and over an arbitrary event
interleaving the generation grows by exactly the number of `UpdateProxies`
calls. -/
theorem update_proxies_amended :
    (∀ (st : CheckerState) (l : List Proxy),
        (updateProxies st l).generation = st.generation + 1 ∧
        (updateProxies st l).currentMetrics = [] ∧
        (updateProxies st l).latencyMetrics = [] ∧
        (updateProxies st l).proxies = l ∧
        (updateProxies st l).badSince = st.badSince ∧
        (updateProxies st l).generationSkips = st.generationSkips) ∧
    (∀ (st : CheckerState) (l : List Proxy) (k : String),
        (alookup st.exportedStatus k ≠ none →
          (st.currentMetrics.map Prod.fst).any (clearsLabel k) = true) →
        (alookup st.exportedLatency k ≠ none →
          (st.currentMetrics.map Prod.fst).any (clearsLabel k) = true) →
        alookup (updateProxies st l).exportedStatus k = none ∧
        alookup (updateProxies st l).exportedLatency k = none) ∧
    (∀ (st : CheckerState) (q : Proxy) (g : Nat) (c : Bool) (o : ProbeOutcome)
        (now : Nat),
        (applyProbeResult st q g c o now).generation = st.generation) ∧
    (∀ (st : CheckerState) (es : List CheckerEvent),
        (runEvents st es).generation
          = st.generation + es.countP isUpdateEvent) := by
  refine ⟨?_, ?_, applyProbeResult_generation, runEvents_generation⟩
  · intro st l
    rw [updateProxies_eq]
    exact ⟨rfl, rfl, rfl, rfl, rfl, rfl⟩
  · intro st l k hs hl
    exact updateProxies_exported_none st l k hs hl

def demoChecker2 : CheckerState :=
  ⟨[], 3, 0, [("vless|h:443|p|sub|sid", true)], [("vless|h:443|p|sub|sid", 7)],
    [("vless|h:443|p|sub", 1)], [("vless|h:443|p|sub", 7)], [("bk", 11)]⟩

theorem update_proxies_amended_witness :
    alookup (updateProxies demoChecker2 []).exportedStatus "vless|h:443|p|sub" = none ∧
    alookup (updateProxies demoChecker2 []).exportedLatency "vless|h:443|p|sub" = none :=
  update_proxies_amended.2.1 demoChecker2 [] "vless|h:443|p|sub"
    (fun _ => by decide) (fun _ => by decide)

def demoChecker3 : CheckerState :=
  ⟨[], 3, 0, [("vless|h:443|a|b|sub|sid", true)], [],
    [("vless|h:443|a|b|sub", 1)], [], []⟩

/-- C7 counterexample: the claim says `UpdateProxies` clears every bad-since
entry and every exported-metric entry.  On `demoChecker2` the bad-since
entry survives the update untouched.  On `demoChecker3` — a proxy whose name
label value is `a|b`, so its recorded status key splits into six
bar-separated fields while its exported series is keyed by the five-field
label key — the split-and-rejoin reconstruction in `ClearMetrics` produces
the wrong label key and the exported entry also survives the update. -/
theorem update_proxies_bad_since_cex :
    ((updateProxies demoChecker2 []).badSince = [("bk", 11)] ∧
      demoChecker2.badSince = [("bk", 11)]) ∧
    (alookup demoChecker3.exportedStatus "vless|h:443|a|b|sub" = some 1 ∧
      alookup (updateProxies demoChecker3 []).exportedStatus
        "vless|h:443|a|b|sub" = some 1) := by
  refine ⟨⟨?_, rfl⟩, by decide, by decide⟩
  rw [updateProxies_eq]
  rfl

/-! ### Claim C9: the candidate ordering -/

/-- C9 (amended): `isBetterCandidate` orders candidates by (latency
ascending, then the lower-cased whitespace-trimmed display name
lexicographically ascending, then stable identity ascending), and on those
comparison keys it is a strict total order: irreflexive, transitive, and
trichotomous on any two candidates whose (latency, normalized name,
identity) triples differ. -/
theorem candidate_order_strict_total :
    (∀ l r : RankedProxy,
        isBetterCandidate l r = true ↔
          (l.latency < r.latency ∨
            (l.latency = r.latency ∧
              (strLt (normName l.proxy.name) (normName r.proxy.name) = true ∨
                (normName l.proxy.name = normName r.proxy.name ∧
                  strLt l.proxy.stableID r.proxy.stableID = true))))) ∧
    (∀ r : RankedProxy, isBetterCandidate r r = false) ∧
    (∀ a b c : RankedProxy, isBetterCandidate a b = true →
        isBetterCandidate b c = true → isBetterCandidate a c = true) ∧
    (∀ l r : RankedProxy, candCmpKey l ≠ candCmpKey r →
        (isBetterCandidate l r = true ∧ isBetterCandidate r l = false) ∨
          (isBetterCandidate l r = false ∧ isBetterCandidate r l = true)) :=
  ⟨isBetterCandidate_iff, better_irrefl,
    fun _ _ _ h1 h2 => better_trans h1 h2,
    fun _ _ h => better_trichotomy h⟩

def ordW1 : RankedProxy := ⟨⟨"p", "s", 1, "aa", "", "", "", "l", "1", 0⟩, 3, "k1"⟩

def ordW2 : RankedProxy := ⟨⟨"p", "s", 1, "bb", "", "", "", "l", "2", 0⟩, 5, "k2"⟩

def ordW3 : RankedProxy := ⟨⟨"p", "s", 1, "cc", "", "", "", "l", "3", 0⟩, 9, "k3"⟩

theorem candidate_order_strict_total_witness :
    isBetterCandidate ordW1 ordW3 = true :=
  candidate_order_strict_total.2.2.1 ordW1 ordW2 ordW3 (by decide) (by decide)

def cexOrdA : RankedProxy := ⟨⟨"vless", "s", 1, "A", "", "", "", "la", "x", 0⟩, 5, "ka"⟩

def cexOrdB : RankedProxy := ⟨⟨"vless", "s", 1, "a", "", "", "", "lb", "x", 0⟩, 5, "kb"⟩

/-- C9 counterexample: the claim as stated compares raw names.  These two
candidates have different (latency, name, identity) triples (names "A" and
"a" differ, and raw lexicographic order puts "A" first), yet the code
declares neither better than the other, because it compares the lower-cased
trimmed names, which coincide. -/
theorem candidate_order_raw_name_cex :
    (cexOrdA.latency, cexOrdA.proxy.name, cexOrdA.proxy.stableID)
      ≠ (cexOrdB.latency, cexOrdB.proxy.name, cexOrdB.proxy.stableID) ∧
    isBetterCandidate cexOrdA cexOrdB = false ∧
    isBetterCandidate cexOrdB cexOrdA = false ∧
    strLt cexOrdA.proxy.name cexOrdB.proxy.name = true := by
  exact ⟨by decide, by decide, by decide, by decide⟩

/-! ### Claim C5: EMA smoothing -/

def emaDemoProxy : Proxy := ⟨"vless", "h", 443, "BL demo", "", "", "", "line", "sid1", 0⟩

def emaDemo1 : RankedProxy := ⟨emaDemoProxy, 100000000, "vless|stable|sid1"⟩

def emaDemo2 : RankedProxy := ⟨emaDemoProxy, 200000000, "vless|stable|sid1"⟩

def emaDemoMap1 : List (String × Nat) := (applyEMA [] [emaDemo1]).1

def emaDemoMap2 : List (String × Nat) := (applyEMA emaDemoMap1 [emaDemo2]).1

/-- C5 (amended): per dedup key `applyEMA` seeds the EMA to the raw sample
on the key's first observation; on later observations it computes the
float64 expression `0.7*prev + 0.3*raw` truncated to whole nanoseconds,
whose stored value equals the exact integer `(7*prev + 3*raw)/10` to within
one nanosecond for all latencies up to `2^49` ns; the spec's example raw
samples of 100 ms then 200 ms for one key produce exactly the EMA sequence
100 ms then 130 ms, both in the stored map and in the smoothed ranked
output. -/
theorem ema_update_rule_amended :
    (∀ (ema : List (String × Nat)) (x : RankedProxy),
        alookup ema x.key = none →
        alookup (applyEMA ema [x]).1 x.key = some x.latency) ∧
    (∀ (ema : List (String × Nat)) (x : RankedProxy) (p : Nat),
        alookup ema x.key = some p → 0 < p → p ≤ 2 ^ 49 →
        x.latency ≤ 2 ^ 49 →
        ∃ e, alookup (applyEMA ema [x]).1 x.key = some e ∧
          (7 * p + 3 * x.latency) / 10 - 1 ≤ e ∧
          e ≤ (7 * p + 3 * x.latency) / 10 + 1) ∧
    (alookup emaDemoMap1 "vless|stable|sid1" = some 100000000 ∧
      alookup emaDemoMap2 "vless|stable|sid1" = some 130000000 ∧
      (applyEMA [] [emaDemo1]).2.map RankedProxy.latency = [100000000] ∧
      (applyEMA emaDemoMap1 [emaDemo2]).2.map RankedProxy.latency = [130000000]) := by
  refine ⟨?_, ?_, by decide, by decide, by decide, by decide⟩
  · intro ema x h
    simp [applyEMA, applyEMAList, alookup_ains, h, emaStep]
  · intro ema x p h hp hp49 hr49
    refine ⟨emaFloat p x.latency, ?_, ?_, ?_⟩
    · simp [applyEMA, applyEMAList, alookup_ains, h, emaStep, hp.ne']
    · exact (emaFloat_bounds p x.latency hp49 hr49).1
    · exact (emaFloat_bounds p x.latency hp49 hr49).2

theorem ema_update_rule_amended_witness :
    alookup [("k", (400 : Nat))] "k" = some 400 ∧ (0 : Nat) < 400 ∧
    (400 : Nat) ≤ 2 ^ 49 ∧ (100 : Nat) ≤ 2 ^ 49 ∧
    ∃ e, alookup (applyEMA [("k", 400)]
          [RankedProxy.mk emaDemoProxy 100 "k"]).1 "k" = some e ∧
      (7 * 400 + 3 * 100) / 10 - 1 ≤ e ∧ e ≤ (7 * 400 + 3 * 100) / 10 + 1 :=
  ⟨by decide, by decide, by decide, by decide,
    ema_update_rule_amended.2.1 [("k", 400)]
      (RankedProxy.mk emaDemoProxy 100 "k") 400
      (by decide) (by decide) (by decide) (by decide)⟩

/-- C5 counterexample: with stored EMA 195053474 ns and raw sample
111655224 ns the exact `0.7*prev + 0.3*raw` is the whole number 170033999,
but the program's float64 sum lands just below it and the duration
conversion truncates down, storing 170033998 ns — so the claimed exact
update formula is not the one the program computes. -/
theorem ema_float_truncation_cex :
    (7 * 195053474 + 3 * 111655224) / 10 = 170033999 ∧
    alookup (applyEMA [("k", 195053474)]
        [RankedProxy.mk emaDemoProxy 111655224 "k"]).1 "k"
      = some 170033998 := by
  exact ⟨by decide, by decide⟩

/-! ### Claim C4: the all-unavailable short-circuit -/

/-- A tagged candidate whose status lookup errored this cycle. -/
def unavailableCandidate (statusFn : StatusFn) (q : Proxy) : Bool :=
  consideredCandidate q && (statusFn (effProxy q).stableID).isNone

theorem scanStep_counts (statusFn : StatusFn) (st : ScanState) (q : Proxy) :
    (scanStep statusFn st q).totalBL
        = st.totalBL + (if consideredCandidate q then 1 else 0) ∧
    (scanStep statusFn st q).naCount
        = st.naCount + (if unavailableCandidate statusFn q then 1 else 0) := by
  by_cases h1 : trimStr q.sourceLine = ""
  · simp [scanStep, consideredCandidate, unavailableCandidate, h1]
  · by_cases h2 : (taggedBL q || taggedCIDR q) = true
    · cases hs : statusFn (effProxy q).stableID with
      | none =>
          simp [scanStep, consideredCandidate, unavailableCandidate, h1, h2, hs]
      | some v =>
          obtain ⟨online, lat⟩ := v
          cases online with
          | false =>
              simp [scanStep, consideredCandidate, unavailableCandidate, h1, h2, hs]
          | true =>
              cases hu : alookup st.uniqueByKey (dedupKey (effProxy q)) with
              | none =>
                  simp [scanStep, consideredCandidate, unavailableCandidate,
                    h1, h2, hs, hu]
              | some ex =>
                  by_cases hb : isBetterCandidate
                      ⟨effProxy q, lat, dedupKey (effProxy q)⟩ ex = true <;>
                    simp [scanStep, consideredCandidate, unavailableCandidate,
                      h1, h2, hs, hu, hb]
    · simp [scanStep, consideredCandidate, unavailableCandidate, h1, h2]

theorem scan_fold_counts (statusFn : StatusFn) :
    ∀ (ps : List Proxy) (st : ScanState),
      (ps.foldl (scanStep statusFn) st).totalBL
          = st.totalBL + ps.countP consideredCandidate ∧
      (ps.foldl (scanStep statusFn) st).naCount
          = st.naCount + ps.countP (unavailableCandidate statusFn)
  | [], st => by simp
  | q :: ps, st => by
      have hstep := scanStep_counts statusFn st q
      have ih := scan_fold_counts statusFn ps (scanStep statusFn st q)
      constructor
      · show (ps.foldl (scanStep statusFn) (scanStep statusFn st q)).totalBL = _
        rw [ih.1, hstep.1, List.countP_cons]
        by_cases h : consideredCandidate q <;> simp [h] <;> omega
      · show (ps.foldl (scanStep statusFn) (scanStep statusFn st q)).naCount = _
        rw [ih.2, hstep.2, List.countP_cons]
        by_cases h : unavailableCandidate statusFn q <;> simp [h] <;> omega

/-- C4: if at least one tagged candidate exists, the status lookup errors
for every tagged candidate, and a previous non-empty published list exists,
then `Next` returns that previous list unchanged and leaves the whole
selector state — published list, publish timestamp, EMA map, active set and
emergency flag — exactly as it was. -/
theorem next_all_unavailable_short_circuit
    (s : SelectorState) (proxies : List Proxy) (statusFn : StatusFn) (now : Nat)
    (h1 : ∃ p ∈ proxies, consideredCandidate p = true)
    (h2 : ∀ p ∈ proxies, consideredCandidate p = true →
      statusFn (effProxy p).stableID = none)
    (h3 : s.published ≠ []) :
    nextRun s proxies statusFn now = ⟨s.published, s⟩ := by
  have hcounts := scan_fold_counts statusFn proxies ⟨0, 0, 0, 0, [], []⟩
  have htot : (nextSelection proxies statusFn).totalBL
      = proxies.countP consideredCandidate := by
    show (proxies.foldl (scanStep statusFn) ⟨0, 0, 0, 0, [], []⟩).totalBL = _
    rw [hcounts.1]
    simp
  have hna : (nextSelection proxies statusFn).naCount
      = proxies.countP (unavailableCandidate statusFn) := by
    show (proxies.foldl (scanStep statusFn) ⟨0, 0, 0, 0, [], []⟩).naCount = _
    rw [hcounts.2]
    simp
  have hcc : proxies.countP (unavailableCandidate statusFn)
      = proxies.countP consideredCandidate := by
    apply List.countP_congr
    intro p hp
    cases hc : consideredCandidate p with
    | false => simp [unavailableCandidate, hc]
    | true => simp [unavailableCandidate, hc, h2 p hp hc]
  have hpos : 0 < proxies.countP consideredCandidate := by
    rw [List.countP_pos_iff]
    exact h1
  have hshort : nextShortCircuit s (nextSelection proxies statusFn) = true := by
    unfold nextShortCircuit
    rw [htot, hna, hcc]
    simp [h3, hpos]
  show (if nextShortCircuit s (nextSelection proxies statusFn) = true then
      NextResult.mk s.published s else _) = _
  rw [if_pos hshort]

def c4sel : SelectorState := ⟨20, [], [], ["prev-link"], 0, false⟩

def c4proxy : Proxy := ⟨"vless", "s", 1, "BL x", "", "", "", "line", "sid", 0⟩

def c4status : StatusFn := fun _ => none

theorem next_all_unavailable_short_circuit_witness :
    nextRun c4sel [c4proxy] c4status 99 = ⟨c4sel.published, c4sel⟩ :=
  next_all_unavailable_short_circuit c4sel [c4proxy] c4status 99
    ⟨c4proxy, by decide, by decide⟩ (fun _ _ _ => rfl) (by decide)

/-! ### Claim C8: the published list is never emptied -/

/-- C8: every `Next` invocation returns exactly the stored published list it
leaves behind; once the published list is non-empty it stays non-empty; and
the published list is only ever changed by the publish step, to the
(non-empty) proposed list. -/
theorem published_never_emptied
    (s : SelectorState) (proxies : List Proxy) (statusFn : StatusFn) (now : Nat) :
    (nextRun s proxies statusFn now).links
        = (nextRun s proxies statusFn now).state.published ∧
    (s.published ≠ [] → (nextRun s proxies statusFn now).state.published ≠ []) ∧
    ((nextRun s proxies statusFn now).state.published = s.published ∨
      ((nextRun s proxies statusFn now).state.published
          = nextProposed s proxies statusFn now ∧
        nextProposed s proxies statusFn now ≠ [])) := by
  by_cases hsc : nextShortCircuit s (nextSelection proxies statusFn) = true
  · have he : nextRun s proxies statusFn now = ⟨s.published, s⟩ := by
      show (if nextShortCircuit s (nextSelection proxies statusFn) = true then
          NextResult.mk s.published s else _) = _
      rw [if_pos hsc]
    rw [he]
    exact ⟨rfl, fun h => h, Or.inl rfl⟩
  · by_cases hempty : nextProposed s proxies statusFn now = [] ∧ s.published ≠ []
    · have he : nextRun s proxies statusFn now
          = ⟨s.published,
              { limit := s.limit, emaByKey := (nextEma s proxies statusFn).1,
                active := (nextReconciled s proxies statusFn now).1,
                published := s.published, lastPublished := s.lastPublished,
                hadEmergency := (nextReconciled s proxies statusFn now).2 }⟩ := by
        show (if nextShortCircuit s (nextSelection proxies statusFn) = true then _
            else _) = _
        rw [if_neg hsc]
        show (if nextProposed s proxies statusFn now = [] ∧ s.published ≠ [] then _
            else _) = _
        rw [if_pos hempty]
      rw [he]
      exact ⟨rfl, fun h => h, Or.inl rfl⟩
    · by_cases hpub : (s.published = [] ∨
          now - s.lastPublished ≥ topBLBatchInterval ∨
          (nextReconciled s proxies statusFn now).2 = true) ∧
          nextProposed s proxies statusFn now ≠ []
      · have he : nextRun s proxies statusFn now
            = ⟨nextProposed s proxies statusFn now,
                { limit := s.limit, emaByKey := (nextEma s proxies statusFn).1,
                  active := (nextReconciled s proxies statusFn now).1,
                  published := nextProposed s proxies statusFn now,
                  lastPublished := now, hadEmergency := false }⟩ := by
          show (if nextShortCircuit s (nextSelection proxies statusFn) = true then _
              else _) = _
          rw [if_neg hsc]
          show (if nextProposed s proxies statusFn now = [] ∧ s.published ≠ [] then _
              else _) = _
          rw [if_neg hempty]
          show (if (s.published = [] ∨
              now - s.lastPublished ≥ topBLBatchInterval ∨
              (nextReconciled s proxies statusFn now).2 = true) ∧
              nextProposed s proxies statusFn now ≠ [] then _ else _) = _
          rw [if_pos hpub]
        rw [he]
        exact ⟨rfl, fun _ => hpub.2, Or.inr ⟨rfl, hpub.2⟩⟩
      · have he : nextRun s proxies statusFn now
            = ⟨s.published,
                { limit := s.limit, emaByKey := (nextEma s proxies statusFn).1,
                  active := (nextReconciled s proxies statusFn now).1,
                  published := s.published, lastPublished := s.lastPublished,
                  hadEmergency := false }⟩ := by
          show (if nextShortCircuit s (nextSelection proxies statusFn) = true then _
              else _) = _
          rw [if_neg hsc]
          show (if nextProposed s proxies statusFn now = [] ∧ s.published ≠ [] then _
              else _) = _
          rw [if_neg hempty]
          show (if (s.published = [] ∨
              now - s.lastPublished ≥ topBLBatchInterval ∨
              (nextReconciled s proxies statusFn now).2 = true) ∧
              nextProposed s proxies statusFn now ≠ [] then _ else _) = _
          rw [if_neg hpub]
        rw [he]
        exact ⟨rfl, fun h => h, Or.inl rfl⟩

theorem published_never_emptied_witness :
    (nextRun c4sel [] c4status 0).state.published ≠ [] :=
  (published_never_emptied c4sel [] c4status 0).2.1 (by decide)

/-! ### Map-key bookkeeping lemmas -/

theorem alookup_eq_none_iff {α : Type} (l : List (String × α)) (k : String) :
    alookup l k = none ↔ k ∉ l.map Prod.fst := by
  induction l with
  | nil => simp [alookup]
  | cons hd tl ih =>
    obtain ⟨k0, v0⟩ := hd
    by_cases h : k = k0
    · subst h
      simp [alookup]
    · simp [alookup, h, ih]

theorem alookup_eq_of_mem_nodup {α : Type} {l : List (String × α)} {k : String}
    {v : α} (hm : (k, v) ∈ l) (hn : (l.map Prod.fst).Nodup) :
    alookup l k = some v := by
  induction l with
  | nil => simp at hm
  | cons hd tl ih =>
    obtain ⟨k0, v0⟩ := hd
    rcases List.mem_cons.mp hm with he | hm'
    · rw [Prod.mk.injEq] at he
      obtain ⟨he1, he2⟩ := he
      simp [alookup, he1, he2]
    · have hn' : (∀ x, (k0, x) ∉ tl) ∧ (tl.map Prod.fst).Nodup := by simpa using hn
      have hk : k ≠ k0 := by
        intro e
        subst e
        exact hn'.1 v hm'
      simp [alookup, hk]
      exact ih hm' hn'.2

theorem keys_ains {α : Type} (l : List (String × α)) (k : String) (v : α) :
    (ains l k v).map Prod.fst
      = if (alookup l k).isSome then l.map Prod.fst else l.map Prod.fst ++ [k] := by
  induction l with
  | nil => simp [ains, alookup]
  | cons hd tl ih =>
    obtain ⟨k0, v0⟩ := hd
    by_cases h : k = k0
    · subst h
      simp [ains, alookup]
    · have h' : ¬ k = k0 := h
      simp only [ains, if_neg h', List.map_cons, alookup, if_neg h, ih]
      by_cases hs : (alookup tl k).isSome <;> simp [hs]

theorem nodup_keys_ains {α : Type} {l : List (String × α)} (k : String) (v : α)
    (hn : (l.map Prod.fst).Nodup) : ((ains l k v).map Prod.fst).Nodup := by
  rw [keys_ains]
  by_cases hs : (alookup l k).isSome
  · simpa [hs]
  · have hk : k ∉ l.map Prod.fst := by
      rw [← alookup_eq_none_iff]
      cases h : alookup l k with
      | none => rfl
      | some v' => rw [h] at hs; simp at hs
    simp [hs]
    exact List.Nodup.append hn (by simp) (by simpa [List.disjoint_singleton] using hk)

theorem keys_adel_sublist {α : Type} (l : List (String × α)) (k : String) :
    ((adel l k).map Prod.fst).Sublist (l.map Prod.fst) := by
  induction l with
  | nil => simp [adel]
  | cons hd tl ih =>
    obtain ⟨k0, v0⟩ := hd
    by_cases h : k0 = k
    · simp only [adel, if_pos h, List.map_cons]
      exact ih.trans (List.sublist_cons_self _ _)
    · simp only [adel, if_neg h, List.map_cons]
      exact ih.cons₂ _

theorem nodup_keys_adel {α : Type} {l : List (String × α)} (k : String)
    (hn : (l.map Prod.fst).Nodup) : ((adel l k).map Prod.fst).Nodup :=
  (keys_adel_sublist l k).nodup hn

/-! ### Claim C2: hysteresis replacement -/

theorem pair_snd_eq {α β : Type} {a c : α} {b d : β} (h : (a, b) = (c, d)) :
    b = d :=
  congrArg Prod.snd h

theorem findWorstFold_spec (now : Nat) :
    ∀ (l : List (String × ActiveEntry)) (acc : Option (String × ActiveEntry)),
      (∀ ak ae, acc = some (ak, ae) → eligibleForReplacement now ae = true) →
      ((l.foldl (findWorstStep now) acc = none →
          acc = none ∧
            ∀ k' e', (k', e') ∈ l → eligibleForReplacement now e' = false) ∧
        (∀ wk we, l.foldl (findWorstStep now) acc = some (wk, we) →
          eligibleForReplacement now we = true ∧
          ((wk, we) ∈ l ∨ acc = some (wk, we)) ∧
          (∀ k' e', (k', e') ∈ l → eligibleForReplacement now e' = true →
            isBetterCandidate we.item e'.item = false) ∧
          (∀ ak ae, acc = some (ak, ae) →
            isBetterCandidate we.item ae.item = false)))
  | [], acc, hacc => by
      constructor
      · intro h
        exact ⟨h, by simp⟩
      · intro wk we h
        refine ⟨hacc wk we h, Or.inr h, by simp, ?_⟩
        intro ak ae hae
        rw [hae] at h
        have hp := Option.some.inj h
        have : ae = we := congrArg Prod.snd hp
        rw [← this]
        exact better_irrefl _
  | (k, e) :: l, acc, hacc => by
      have hstep : ((k, e) :: l).foldl (findWorstStep now) acc
          = l.foldl (findWorstStep now) (findWorstStep now acc (k, e)) := rfl
      by_cases hel : eligibleForReplacement now e = true
      · cases acc with
        | none =>
            have hs : findWorstStep now none (k, e) = some (k, e) := by
              simp [findWorstStep, hel]
            have ih := findWorstFold_spec now l (some (k, e))
              (fun ak ae hh => (pair_snd_eq (Option.some.inj hh)) ▸ hel)
            rw [hstep, hs]
            constructor
            · intro h
              exact absurd (ih.1 h).1 (by simp)
            · intro wk we h
              obtain ⟨helig, hmem, hall, haccn⟩ := ih.2 wk we h
              refine ⟨helig, ?_, ?_, by simp⟩
              · rcases hmem with hm | hm
                · exact Or.inl (List.mem_cons_of_mem _ hm)
                · exact Or.inl (List.mem_cons.mpr (Or.inl (Option.some.inj hm).symm))
              · intro k' e' hm' hel'
                rcases List.mem_cons.mp hm' with hh | hh
                · have : e' = e := congrArg Prod.snd hh
                  rw [this]
                  exact haccn k e rfl
                · exact hall k' e' hh hel'
        | some we0p =>
            obtain ⟨wk0, we0⟩ := we0p
            have hacc0 := hacc wk0 we0 rfl
            by_cases hbw : isBetterCandidate we0.item e.item = true
            · have hs : findWorstStep now (some (wk0, we0)) (k, e) = some (k, e) := by
                simp [findWorstStep, hel, hbw]
              have ih := findWorstFold_spec now l (some (k, e))
                (fun ak ae hh => (pair_snd_eq (Option.some.inj hh)) ▸ hel)
              rw [hstep, hs]
              constructor
              · intro h
                exact absurd (ih.1 h).1 (by simp)
              · intro wk we h
                obtain ⟨helig, hmem, hall, haccn⟩ := ih.2 wk we h
                have hke : isBetterCandidate we.item e.item = false := haccn k e rfl
                refine ⟨helig, ?_, ?_, ?_⟩
                · rcases hmem with hm | hm
                  · exact Or.inl (List.mem_cons_of_mem _ hm)
                  · exact Or.inl (List.mem_cons.mpr (Or.inl (Option.some.inj hm).symm))
                · intro k' e' hm' hel'
                  rcases List.mem_cons.mp hm' with hh | hh
                  · have : e' = e := congrArg Prod.snd hh
                    rw [this]
                    exact hke
                  · exact hall k' e' hh hel'
                · intro ak ae hae
                  have : we0 = ae := pair_snd_eq (Option.some.inj hae)
                  rw [← this]
                  rw [Bool.eq_false_iff]
                  intro hcon
                  have := better_trans hcon hbw
                  exact absurd this (by simp [hke])
            · have hbwf : isBetterCandidate we0.item e.item = false := by
                cases hx : isBetterCandidate we0.item e.item with
                | false => rfl
                | true => exact absurd hx hbw
              have hs : findWorstStep now (some (wk0, we0)) (k, e)
                  = some (wk0, we0) := by
                simp [findWorstStep, hel, hbwf]
              have ih := findWorstFold_spec now l (some (wk0, we0)) hacc
              rw [hstep, hs]
              constructor
              · intro h
                exact absurd (ih.1 h).1 (by simp)
              · intro wk we h
                obtain ⟨helig, hmem, hall, haccn⟩ := ih.2 wk we h
                have hwe0 : isBetterCandidate we.item we0.item = false :=
                  haccn wk0 we0 rfl
                refine ⟨helig, ?_, ?_, ?_⟩
                · rcases hmem with hm | hm
                  · exact Or.inl (List.mem_cons_of_mem _ hm)
                  · exact Or.inr hm
                · intro k' e' hm' hel'
                  rcases List.mem_cons.mp hm' with hh | hh
                  · have : e' = e := congrArg Prod.snd hh
                    rw [this]
                    exact better_neg_trans hbwf hwe0
                  · exact hall k' e' hh hel'
                · intro ak ae hae
                  have : we0 = ae := pair_snd_eq (Option.some.inj hae)
                  rw [← this]
                  exact hwe0
      · have helf : eligibleForReplacement now e = false := by
          cases hx : eligibleForReplacement now e with
          | false => rfl
          | true => exact absurd hx hel
        have hs : findWorstStep now acc (k, e) = acc := by
          simp [findWorstStep, hel]
        have ih := findWorstFold_spec now l acc hacc
        rw [hstep, hs]
        constructor
        · intro h
          obtain ⟨ha, hl⟩ := ih.1 h
          refine ⟨ha, ?_⟩
          intro k' e' hm'
          rcases List.mem_cons.mp hm' with hh | hh
          · have : e' = e := congrArg Prod.snd hh
            rw [this]
            exact helf
          · exact hl k' e' hh
        · intro wk we h
          obtain ⟨helig, hmem, hall, haccn⟩ := ih.2 wk we h
          refine ⟨helig, ?_, ?_, haccn⟩
          · rcases hmem with hm | hm
            · exact Or.inl (List.mem_cons_of_mem _ hm)
            · exact Or.inr hm
          · intro k' e' hm' hel'
            rcases List.mem_cons.mp hm' with hh | hh
            · have : e' = e := congrArg Prod.snd hh
              rw [this] at hel'
              exact absurd hel' hel
            · exact hall k' e' hh hel'

theorem findWorst_none (now : Nat) (active : List (String × ActiveEntry))
    (h : findWorstReplaceable now active = none) :
    ∀ k e, (k, e) ∈ active → eligibleForReplacement now e = false :=
  ((findWorstFold_spec now active none (by intro ak ae h'; cases h')).1 h).2

theorem findWorst_some (now : Nat) (active : List (String × ActiveEntry))
    (wk : String) (we : ActiveEntry)
    (h : findWorstReplaceable now active = some (wk, we)) :
    eligibleForReplacement now we = true ∧ (wk, we) ∈ active ∧
    ∀ k' e', (k', e') ∈ active → eligibleForReplacement now e' = true →
      isBetterCandidate we.item e'.item = false := by
  have hs := (findWorstFold_spec now active none (by intro ak ae h'; cases h')).2 wk we h
  refine ⟨hs.1, ?_, hs.2.2.1⟩
  rcases hs.2.1 with hm | hm
  · exact hm
  · cases hm

theorem isSignificantImprovement_iff (c w : Nat) :
    isSignificantImprovement c w = true ↔
      (c < w ∧ (topBLReplaceMinMs ≤ w - c ∨ (0 < w ∧ w ≤ 5 * (w - c)))) := by
  unfold isSignificantImprovement
  by_cases h1 : c ≥ w
  · rw [if_pos h1]
    constructor
    · intro h
      cases h
    · intro h
      exact absurd h.1 (by omega)
  · rw [if_neg h1]
    by_cases h2 : w - c ≥ topBLReplaceMinMs
    · rw [if_pos h2]
      constructor
      · intro _
        exact ⟨by omega, Or.inl h2⟩
      · intro _
        rfl
    · rw [if_neg h2]
      by_cases h3 : w = 0
      · rw [if_pos h3]
        constructor
        · intro h
          cases h
        · intro h
          rcases h.2 with h2' | h2'
          · exact absurd h2' h2
          · exact absurd h2'.1 (by omega)
      · rw [if_neg h3]
        simp only [decide_eq_true_eq]
        constructor
        · intro h
          exact ⟨by omega, Or.inr ⟨by omega, h⟩⟩
        · intro h
          rcases h.2 with h2' | h2'
          · exact absurd h2' h2
          · exact h2'.2

theorem replacePhase_retains (now : Nat) :
    ∀ (cs : List RankedProxy) (act : List (String × ActiveEntry)) (k : String)
      (e : ActiveEntry),
      (act.map Prod.fst).Nodup → alookup act k = some e →
      eligibleForReplacement now e = false →
      alookup (replacePhase now act cs) k = some e
  | [], _, _, _, _, hl, _ => hl
  | c :: cs, act, k, e, hn, hl, hne => by
      by_cases hk : (alookup act c.key).isSome = true
      · have he : replacePhase now act (c :: cs) = replacePhase now act cs := by
          simp only [replacePhase, hk, if_true]
        rw [he]
        exact replacePhase_retains now cs act k e hn hl hne
      · cases hw : findWorstReplaceable now act with
        | none =>
            have he : replacePhase now act (c :: cs) = act := by
              simp only [replacePhase, hk, hw, if_false]
              simp
            rw [he]
            exact hl
        | some wkwe =>
            obtain ⟨wk, we⟩ := wkwe
            by_cases hsig : isSignificantImprovement c.latency we.item.latency = true
            · have he : replacePhase now act (c :: cs)
                  = replacePhase now (ains (adel act wk) c.key ⟨c, now, 0⟩) cs := by
                simp only [replacePhase, hk, hw, hsig, if_false, not_true_eq_false]
                simp
              rw [he]
              have hspec := findWorst_some now act wk we hw
              have hwlk : alookup act wk = some we :=
                alookup_eq_of_mem_nodup hspec.2.1 hn
              have hxk : wk ≠ k := by
                intro hkk
                subst hkk
                rw [hl] at hwlk
                have hwe : we = e := Option.some.inj hwlk.symm
                rw [hwe] at hspec
                exact absurd hspec.1 (by simp [hne])
              have hck : c.key ≠ k := by
                intro hkk
                rw [hkk, hl] at hk
                simp at hk
              have hlk' : alookup (ains (adel act wk) c.key ⟨c, now, 0⟩) k
                  = some e := by
                rw [alookup_ains, if_neg (fun h => hck h.symm), alookup_adel,
                  if_neg (fun h => hxk h.symm)]
                exact hl
              exact replacePhase_retains now cs _ k e
                (nodup_keys_ains _ _ (nodup_keys_adel _ hn)) hlk' hne
            · have he : replacePhase now act (c :: cs) = replacePhase now act cs := by
                simp only [replacePhase, hk, hw, hsig, if_false, not_false_eq_true,
                  if_true]
                simp
              rw [he]
              exact replacePhase_retains now cs act k e hn hl hne

theorem replacePhase_removed (now : Nat) :
    ∀ (cs : List RankedProxy) (act : List (String × ActiveEntry)) (k : String)
      (e : ActiveEntry),
      (act.map Prod.fst).Nodup → alookup act k = some e →
      alookup (replacePhase now act cs) k = none →
      eligibleForReplacement now e = true ∧
        ∃ c ∈ cs, isSignificantImprovement c.latency e.item.latency = true
  | [], act, k, e, _, hl, hrem => by
      rw [show replacePhase now act [] = act from rfl, hl] at hrem
      cases hrem
  | c :: cs, act, k, e, hn, hl, hrem => by
      by_cases hk : (alookup act c.key).isSome = true
      · have he : replacePhase now act (c :: cs) = replacePhase now act cs := by
          simp only [replacePhase, hk, if_true]
        rw [he] at hrem
        obtain ⟨helig, c', hc', hsig'⟩ :=
          replacePhase_removed now cs act k e hn hl hrem
        exact ⟨helig, c', List.mem_cons_of_mem _ hc', hsig'⟩
      · cases hw : findWorstReplaceable now act with
        | none =>
            have he : replacePhase now act (c :: cs) = act := by
              simp only [replacePhase, hk, hw, if_false]
              simp
            rw [he, hl] at hrem
            cases hrem
        | some wkwe =>
            obtain ⟨wk, we⟩ := wkwe
            by_cases hsig : isSignificantImprovement c.latency we.item.latency = true
            · have he : replacePhase now act (c :: cs)
                  = replacePhase now (ains (adel act wk) c.key ⟨c, now, 0⟩) cs := by
                simp only [replacePhase, hk, hw, hsig, if_false, not_true_eq_false]
                simp
              rw [he] at hrem
              have hspec := findWorst_some now act wk we hw
              have hwlk : alookup act wk = some we :=
                alookup_eq_of_mem_nodup hspec.2.1 hn
              by_cases hxk : wk = k
              · subst hxk
                rw [hl] at hwlk
                have hwe : we = e := Option.some.inj hwlk.symm
                rw [hwe] at hspec hsig
                exact ⟨hspec.1, c, List.mem_cons_self _ _, hsig⟩
              · have hck : c.key ≠ k := by
                  intro hkk
                  rw [hkk, hl] at hk
                  simp at hk
                have hlk' : alookup (ains (adel act wk) c.key ⟨c, now, 0⟩) k
                    = some e := by
                  rw [alookup_ains, if_neg (fun h => hck h.symm), alookup_adel,
                    if_neg (fun h => hxk h.symm)]
                  exact hl
                obtain ⟨helig, c', hc', hsig'⟩ :=
                  replacePhase_removed now cs _ k e
                    (nodup_keys_ains _ _ (nodup_keys_adel _ hn)) hlk' hrem
                exact ⟨helig, c', List.mem_cons_of_mem _ hc', hsig'⟩
            · have he : replacePhase now act (c :: cs) = replacePhase now act cs := by
                simp only [replacePhase, hk, hw, hsig, if_false, not_false_eq_true,
                  if_true]
                simp
              rw [he] at hrem
              obtain ⟨helig, c', hc', hsig'⟩ :=
                replacePhase_removed now cs act k e hn hl hrem
              exact ⟨helig, c', List.mem_cons_of_mem _ hc', hsig'⟩

/-- C2: once the active set is full, the replacement loop evicts only the
worst eligible member, and only for a significant improvement.  Precisely:
(1) `isSignificantImprovement` holds exactly for an absolute EMA gain of at
least 50 ms or, with a positive incumbent latency, a relative gain of at
least 20 %; (2) `findWorstReplaceable` returns only an eligible member that
no other eligible member is worse than; (3) an active entry that is not yet
eligible (hold not elapsed and bad streak below the limit) survives the
replacement loop unchanged; (4) an entry the replacement loop removes was
eligible and some candidate improved significantly on it; and (5) a member
is eligible exactly when it was held for the 2-hour minimum or its
bad-streak already reached the eviction limit. -/
theorem hysteresis_replacement :
    (∀ c w : Nat, isSignificantImprovement c w = true ↔
        (c < w ∧ (topBLReplaceMinMs ≤ w - c ∨ (0 < w ∧ w ≤ 5 * (w - c))))) ∧
    (∀ (now : Nat) (active : List (String × ActiveEntry)) (wk : String)
        (we : ActiveEntry),
        findWorstReplaceable now active = some (wk, we) →
        eligibleForReplacement now we = true ∧ (wk, we) ∈ active ∧
          ∀ k' e', (k', e') ∈ active → eligibleForReplacement now e' = true →
            isBetterCandidate we.item e'.item = false) ∧
    (∀ (now : Nat) (cs : List RankedProxy) (act : List (String × ActiveEntry))
        (k : String) (e : ActiveEntry),
        (act.map Prod.fst).Nodup → alookup act k = some e →
        eligibleForReplacement now e = false →
        alookup (replacePhase now act cs) k = some e) ∧
    (∀ (now : Nat) (cs : List RankedProxy) (act : List (String × ActiveEntry))
        (k : String) (e : ActiveEntry),
        (act.map Prod.fst).Nodup → alookup act k = some e →
        alookup (replacePhase now act cs) k = none →
        eligibleForReplacement now e = true ∧
          ∃ c ∈ cs, isSignificantImprovement c.latency e.item.latency = true) ∧
    (∀ (now : Nat) (e : ActiveEntry),
        eligibleForReplacement now e = true ↔
          (topBLMinHold ≤ now - e.addedAt ∨ topBLBadStreakLimit ≤ e.badStreak)) := by
  refine ⟨isSignificantImprovement_iff, findWorst_some, replacePhase_retains,
    replacePhase_removed, ?_⟩
  intro now e
  simp [eligibleForReplacement]

def hystEntry : ActiveEntry := ⟨⟨⟨"vless", "s", 1, "BL inc", "", "", "", "li", "s1", 0⟩, 200000000, "ki"⟩, 0, 0⟩

def hystCand : RankedProxy := ⟨⟨"vless", "s", 1, "BL ch", "", "", "", "lc", "s2", 0⟩, 180000000, "kc"⟩

theorem hysteresis_replacement_witness :
    alookup (replacePhase 0 [("ki", hystEntry)] [hystCand]) "ki" = some hystEntry :=
  hysteresis_replacement.2.2.1 0 [hystCand] [("ki", hystEntry)] "ki" hystEntry
    (by decide) (by decide) (by decide)

/-! ### Claim C6: quota selection -/

/-- An entry tagged only with the BL bucket marker. -/
def blOnlyTag (r : RankedProxy) : Bool := taggedBL r.proxy && !taggedCIDR r.proxy

/-- An entry tagged only with the CIDR bucket marker. -/
def cidrOnlyTag (r : RankedProxy) : Bool := taggedCIDR r.proxy && !taggedBL r.proxy

theorem quotaWalk_stop (blLimit cidrLimit : Nat) (qs : QuotaState)
    (cs : List RankedProxy) (h1 : qs.blCount ≥ blLimit)
    (h2 : qs.cidrCount ≥ cidrLimit) : quotaWalk blLimit cidrLimit qs cs = qs := by
  cases cs with
  | nil => rfl
  | cons item rest =>
      simp only [quotaWalk]
      rw [if_pos ⟨h1, h2⟩]

theorem quotaWalk_invariant (blLimit cidrLimit : Nat) :
    ∀ (cs : List RankedProxy) (qs : QuotaState),
      qs.blCount ≤ blLimit → qs.cidrCount ≤ cidrLimit →
      qs.selected.countP blOnlyTag ≤ qs.blCount →
      qs.selected.countP cidrOnlyTag ≤ qs.cidrCount →
      ((quotaWalk blLimit cidrLimit qs cs).blCount ≤ blLimit ∧
        (quotaWalk blLimit cidrLimit qs cs).cidrCount ≤ cidrLimit ∧
        (quotaWalk blLimit cidrLimit qs cs).selected.countP blOnlyTag
            ≤ (quotaWalk blLimit cidrLimit qs cs).blCount ∧
        (quotaWalk blLimit cidrLimit qs cs).selected.countP cidrOnlyTag
            ≤ (quotaWalk blLimit cidrLimit qs cs).cidrCount)
  | [], qs, hb, hc, hsb, hsc => ⟨hb, hc, hsb, hsc⟩
  | item :: rest, qs, hb, hc, hsb, hsc => by
      by_cases hfull : qs.blCount ≥ blLimit ∧ qs.cidrCount ≥ cidrLimit
      · have he : quotaWalk blLimit cidrLimit qs (item :: rest) = qs := by
          simp only [quotaWalk]
          rw [if_pos hfull]
        rw [he]
        exact ⟨hb, hc, hsb, hsc⟩
      · by_cases hkey : item.key ∈ qs.selectedKeys
        · have he : quotaWalk blLimit cidrLimit qs (item :: rest)
              = quotaWalk blLimit cidrLimit qs rest := by
            simp only [quotaWalk]
            rw [if_neg hfull, if_pos hkey]
          rw [he]
          exact quotaWalk_invariant blLimit cidrLimit rest qs hb hc hsb hsc
        · by_cases htag : ¬ ((taggedBL item.proxy || taggedCIDR item.proxy) = true)
          · have he : quotaWalk blLimit cidrLimit qs (item :: rest)
                = quotaWalk blLimit cidrLimit qs rest := by
              simp only [quotaWalk]
              rw [if_neg hfull, if_neg hkey, if_pos htag]
            rw [he]
            exact quotaWalk_invariant blLimit cidrLimit rest qs hb hc hsb hsc
          · by_cases hboth : taggedBL item.proxy = true ∧ taggedCIDR item.proxy = true
            · by_cases hneed : (blLimit : Int) - (qs.blCount : Int) ≤ 0 ∧
                  (cidrLimit : Int) - (qs.cidrCount : Int) ≤ 0
              · have he : quotaWalk blLimit cidrLimit qs (item :: rest)
                    = quotaWalk blLimit cidrLimit qs rest := by
                  simp only [quotaWalk]
                  rw [if_neg hfull, if_neg hkey, if_neg htag, if_pos hboth,
                    if_pos hneed]
                rw [he]
                exact quotaWalk_invariant blLimit cidrLimit rest qs hb hc hsb hsc
              · have hblo : blOnlyTag item = false := by
                  simp [blOnlyTag, hboth.2]
                have hcdo : cidrOnlyTag item = false := by
                  simp [cidrOnlyTag, hboth.1]
                by_cases hmore : (cidrLimit : Int) - (qs.cidrCount : Int) >
                    (blLimit : Int) - (qs.blCount : Int)
                · have he : quotaWalk blLimit cidrLimit qs (item :: rest)
                      = quotaWalk blLimit cidrLimit
                          (admitItem { qs with cidrCount := qs.cidrCount + 1 } item)
                          rest := by
                    simp only [quotaWalk]
                    rw [if_neg hfull, if_neg hkey, if_neg htag, if_pos hboth,
                      if_neg hneed, if_pos hmore]
                  rw [he]
                  refine quotaWalk_invariant blLimit cidrLimit rest _ hb (by simp [admitItem]; omega)
                    ?_ ?_
                  · simpa [admitItem, List.countP_append, hblo] using hsb
                  · simp [admitItem, List.countP_append, hcdo]
                    omega
                · have he : quotaWalk blLimit cidrLimit qs (item :: rest)
                      = quotaWalk blLimit cidrLimit
                          (admitItem { qs with blCount := qs.blCount + 1 } item)
                          rest := by
                    simp only [quotaWalk]
                    rw [if_neg hfull, if_neg hkey, if_neg htag, if_pos hboth,
                      if_neg hneed, if_neg hmore]
                  rw [he]
                  refine quotaWalk_invariant blLimit cidrLimit rest _ (by simp [admitItem]; omega) hc
                    ?_ ?_
                  · simp [admitItem, List.countP_append, hblo]
                    omega
                  · simpa [admitItem, List.countP_append, hcdo] using hsc
            · by_cases hbl : taggedBL item.proxy = true
              · have hcd : taggedCIDR item.proxy = false := by
                  cases hx : taggedCIDR item.proxy with
                  | false => rfl
                  | true => exact absurd ⟨hbl, hx⟩ hboth
                by_cases hblfull : qs.blCount ≥ blLimit
                · have he : quotaWalk blLimit cidrLimit qs (item :: rest)
                      = quotaWalk blLimit cidrLimit qs rest := by
                    simp only [quotaWalk]
                    rw [if_neg hfull, if_neg hkey, if_neg htag,
                      if_neg (by simp [hcd] : ¬ (taggedBL item.proxy = true ∧
                        taggedCIDR item.proxy = true)), if_pos hbl, if_pos hblfull]
                  rw [he]
                  exact quotaWalk_invariant blLimit cidrLimit rest qs hb hc hsb hsc
                · have he : quotaWalk blLimit cidrLimit qs (item :: rest)
                      = quotaWalk blLimit cidrLimit
                          (admitItem { qs with blCount := qs.blCount + 1 } item)
                          rest := by
                    simp only [quotaWalk]
                    rw [if_neg hfull, if_neg hkey, if_neg htag,
                      if_neg (by simp [hcd] : ¬ (taggedBL item.proxy = true ∧
                        taggedCIDR item.proxy = true)), if_pos hbl, if_neg hblfull]
                  rw [he]
                  refine quotaWalk_invariant blLimit cidrLimit rest _ (by simp [admitItem]; omega) hc
                    ?_ ?_
                  · simp [admitItem, List.countP_append, List.countP_singleton]
                    split <;> omega
                  · have hcdo : cidrOnlyTag item = false := by
                      simp [cidrOnlyTag, hcd]
                    simpa [admitItem, List.countP_append, hcdo] using hsc
              · have hblf : taggedBL item.proxy = false := by
                  cases hx : taggedBL item.proxy with
                  | false => rfl
                  | true => exact absurd hx hbl
                have hor : taggedBL item.proxy = true ∨ taggedCIDR item.proxy = true := by
                  simpa using not_not.mp htag
                have hcd : taggedCIDR item.proxy = true := by
                  rcases hor with h | h
                  · exact absurd h hbl
                  · exact h
                by_cases hcdfull : qs.cidrCount ≥ cidrLimit
                · have he : quotaWalk blLimit cidrLimit qs (item :: rest)
                      = quotaWalk blLimit cidrLimit qs rest := by
                    simp only [quotaWalk]
                    rw [if_neg hfull, if_neg hkey, if_neg htag,
                      if_neg (by simp [hblf] : ¬ (taggedBL item.proxy = true ∧
                        taggedCIDR item.proxy = true)),
                      if_neg (by simp [hblf] : ¬ taggedBL item.proxy = true),
                      if_pos hcdfull]
                  rw [he]
                  exact quotaWalk_invariant blLimit cidrLimit rest qs hb hc hsb hsc
                · have he : quotaWalk blLimit cidrLimit qs (item :: rest)
                      = quotaWalk blLimit cidrLimit
                          (admitItem { qs with cidrCount := qs.cidrCount + 1 } item)
                          rest := by
                    simp only [quotaWalk]
                    rw [if_neg hfull, if_neg hkey, if_neg htag,
                      if_neg (by simp [hblf] : ¬ (taggedBL item.proxy = true ∧
                        taggedCIDR item.proxy = true)),
                      if_neg (by simp [hblf] : ¬ taggedBL item.proxy = true),
                      if_neg hcdfull]
                  rw [he]
                  refine quotaWalk_invariant blLimit cidrLimit rest _ hb (by simp [admitItem]; omega)
                    ?_ ?_
                  · have hblo : blOnlyTag item = false := by
                      simp [blOnlyTag, hblf]
                    simpa [admitItem, List.countP_append, hblo] using hsb
                  · simp [admitItem, List.countP_append, List.countP_singleton]
                    split <;> omega

def c6mk (nm sid line : String) : Proxy := ⟨"vless", "s", 1, nm, "", "", "", line, sid, 0⟩

def c6proxies : List Proxy :=
  [c6mk "BLa" "a01" "w01", c6mk "BLb" "a02" "w02", c6mk "BLc" "a03" "w03",
   c6mk "BLd" "a04" "w04", c6mk "BLe" "a05" "w05", c6mk "BLf" "a06" "w06",
   c6mk "BLg" "a07" "w07", c6mk "BLh" "a08" "w08", c6mk "BLi" "a09" "w09",
   c6mk "BLj" "a10" "w10", c6mk "BLk" "a11" "w11", c6mk "BLl" "a12" "w12",
   c6mk "CIDRa" "b01" "x01", c6mk "CIDRb" "b02" "x02", c6mk "CIDRc" "b03" "x03",
   c6mk "CIDRd" "b04" "x04", c6mk "CIDRe" "b05" "x05", c6mk "CIDRf" "b06" "x06",
   c6mk "CIDRg" "b07" "x07", c6mk "CIDRh" "b08" "x08", c6mk "CIDRi" "b09" "x09",
   c6mk "CIDRj" "b10" "x10", c6mk "CIDRk" "b11" "x11", c6mk "CIDRl" "b12" "x12"]

def c6status : StatusFn := fun _ => some (true, 100)

/-- C6: the quota walk admits at most `blLimit` BL-only entries and at most
`cidrLimit` CIDR-only entries; a dual-tagged entry is counted against the
bucket with strictly more remaining quota; the walk returns immediately once
both quotas are filled; and on 12 BL-only plus 12 CIDR-only online
candidates with quotas (10,10) the selection contains exactly 10 of each and
20 in total. -/
theorem quota_selection :
    (∀ (blLimit cidrLimit : Nat) (proxies : List Proxy) (statusFn : StatusFn),
        (selectTopBLAndCIDRByLatency proxies statusFn blLimit cidrLimit).proxies.countP
            blOnlyTag ≤ blLimit ∧
        (selectTopBLAndCIDRByLatency proxies statusFn blLimit cidrLimit).proxies.countP
            cidrOnlyTag ≤ cidrLimit) ∧
    (∀ (blLimit cidrLimit : Nat) (qs : QuotaState) (item : RankedProxy)
        (rest : List RankedProxy),
        ¬ (qs.blCount ≥ blLimit ∧ qs.cidrCount ≥ cidrLimit) →
        item.key ∉ qs.selectedKeys →
        taggedBL item.proxy = true → taggedCIDR item.proxy = true →
        ¬ ((blLimit : Int) - (qs.blCount : Int) ≤ 0 ∧
            (cidrLimit : Int) - (qs.cidrCount : Int) ≤ 0) →
        quotaWalk blLimit cidrLimit qs (item :: rest)
          = (if (cidrLimit : Int) - (qs.cidrCount : Int) >
                (blLimit : Int) - (qs.blCount : Int) then
              quotaWalk blLimit cidrLimit
                (admitItem { qs with cidrCount := qs.cidrCount + 1 } item) rest
            else
              quotaWalk blLimit cidrLimit
                (admitItem { qs with blCount := qs.blCount + 1 } item) rest)) ∧
    (∀ (blLimit cidrLimit : Nat) (qs : QuotaState) (cs : List RankedProxy),
        qs.blCount ≥ blLimit → qs.cidrCount ≥ cidrLimit →
        quotaWalk blLimit cidrLimit qs cs = qs) ∧
    ((selectTopBLAndCIDRByLatency c6proxies c6status 10 10).proxies.countP
        blOnlyTag = 10 ∧
      (selectTopBLAndCIDRByLatency c6proxies c6status 10 10).proxies.countP
        cidrOnlyTag = 10 ∧
      (selectTopBLAndCIDRByLatency c6proxies c6status 10 10).proxies.length = 20) := by
  refine ⟨?_, ?_, quotaWalk_stop, by decide⟩
  · intro blLimit cidrLimit proxies statusFn
    have hinv := quotaWalk_invariant blLimit cidrLimit
      (sortCand (((proxies.foldl (scanStep statusFn)
        ⟨0, 0, 0, 0, [], []⟩).uniqueByKey).map Prod.snd))
      ⟨[], [], 0, 0⟩ (by simp) (by simp) (by simp) (by simp)
    exact ⟨le_trans hinv.2.2.1 hinv.1, le_trans hinv.2.2.2 hinv.2.1⟩
  · intro blLimit cidrLimit qs item rest hfull hkey hbl hcd hneed
    by_cases hmore : (cidrLimit : Int) - (qs.cidrCount : Int) >
        (blLimit : Int) - (qs.blCount : Int)
    · rw [if_pos hmore]
      simp only [quotaWalk]
      rw [if_neg hfull, if_neg hkey,
        if_neg (by simp [hbl] : ¬ ¬ ((taggedBL item.proxy || taggedCIDR item.proxy) = true)),
        if_pos ⟨hbl, hcd⟩, if_neg hneed, if_pos hmore]
    · rw [if_neg hmore]
      simp only [quotaWalk]
      rw [if_neg hfull, if_neg hkey,
        if_neg (by simp [hbl] : ¬ ¬ ((taggedBL item.proxy || taggedCIDR item.proxy) = true)),
        if_pos ⟨hbl, hcd⟩, if_neg hneed, if_neg hmore]

def c6qs : QuotaState := ⟨[], [], 3, 3⟩

def c6item : RankedProxy := ⟨⟨"vless", "s", 1, "BL CIDR", "", "", "", "y", "c1", 0⟩, 5, "kk"⟩

theorem quota_selection_witness :
    quotaWalk 10 4 c6qs [c6item]
      = (if (4 : Int) - (c6qs.cidrCount : Int) > (10 : Int) - (c6qs.blCount : Int) then
          quotaWalk 10 4 (admitItem { c6qs with cidrCount := c6qs.cidrCount + 1 } c6item) []
        else
          quotaWalk 10 4 (admitItem { c6qs with blCount := c6qs.blCount + 1 } c6item) []) :=
  quota_selection.2.1 10 4 c6qs c6item [] (by decide) (by decide) (by decide)
    (by decide) (by decide)

/-! ### Claim C3: bad-streak eviction and the emergency flag -/

theorem streakPhase_keys_sublist (keyStates : List (String × KeyStatusCounts))
    (byKey : List (String × RankedProxy)) :
    ∀ act : List (String × ActiveEntry),
      ((streakPhase keyStates byKey act).1.map Prod.fst).Sublist
        (act.map Prod.fst)
  | [] => by simp [streakPhase]
  | (k0, e0) :: act => by
      have he : streakPhase keyStates byKey ((k0, e0) :: act)
          = (if (streakUpdate keyStates byKey k0 e0).badStreak ≥ topBLBadStreakLimit
             then ((streakPhase keyStates byKey act).1, true)
             else ((k0, streakUpdate keyStates byKey k0 e0)
                    :: (streakPhase keyStates byKey act).1,
                  (streakPhase keyStates byKey act).2)) := rfl
      rw [he]
      by_cases h : (streakUpdate keyStates byKey k0 e0).badStreak
          ≥ topBLBadStreakLimit
      · rw [if_pos h]
        exact (streakPhase_keys_sublist keyStates byKey act).trans
          (List.sublist_cons_self _ _)
      · rw [if_neg h]
        exact (streakPhase_keys_sublist keyStates byKey act).cons₂ _

theorem streakPhase_evicts (keyStates : List (String × KeyStatusCounts))
    (byKey : List (String × RankedProxy)) :
    ∀ (act : List (String × ActiveEntry)) (k : String) (e : ActiveEntry),
      (act.map Prod.fst).Nodup → alookup act k = some e →
      ((alookup keyStates k).getD zeroCounts).online = 0 →
      1 ≤ e.badStreak →
      alookup (streakPhase keyStates byKey act).1 k = none ∧
      (streakPhase keyStates byKey act).2 = true
  | [], k, e, _, hl, _, _ => by simp [alookup] at hl
  | (k0, e0) :: act, k, e, hn, hl, hon, hbs => by
      have he : streakPhase keyStates byKey ((k0, e0) :: act)
          = (if (streakUpdate keyStates byKey k0 e0).badStreak ≥ topBLBadStreakLimit
             then ((streakPhase keyStates byKey act).1, true)
             else ((k0, streakUpdate keyStates byKey k0 e0)
                    :: (streakPhase keyStates byKey act).1,
                  (streakPhase keyStates byKey act).2)) := rfl
      have hn' : (∀ x, (k0, x) ∉ act) ∧ (act.map Prod.fst).Nodup := by simpa using hn
      by_cases hk : k = k0
      · subst hk
        have he0 : e0 = e := Option.some.inj (by simpa [alookup] using hl)
        subst he0
        have hstreak : (streakUpdate keyStates byKey k e0).badStreak
            = e0.badStreak + 1 := by
          simp [streakUpdate, hon]
        have hev : (streakUpdate keyStates byKey k e0).badStreak
            ≥ topBLBadStreakLimit := by
          rw [hstreak]
          unfold topBLBadStreakLimit
          omega
        rw [he, if_pos hev]
        refine ⟨?_, rfl⟩
        rw [alookup_eq_none_iff]
        intro hmem
        have hsub := streakPhase_keys_sublist keyStates byKey act
        have : k ∈ act.map Prod.fst := hsub.mem hmem
        rcases List.mem_map.mp this with ⟨⟨kx, ex⟩, hx, hke⟩
        exact hn'.1 ex (by simpa [← hke] using hx)
      · have hl' : alookup act k = some e := by simpa [alookup, hk] using hl
        have ih := streakPhase_evicts keyStates byKey act k e hn'.2 hl' hon hbs
        rw [he]
        by_cases hev : (streakUpdate keyStates byKey k0 e0).badStreak
            ≥ topBLBadStreakLimit
        · rw [if_pos hev]
          exact ⟨ih.1, rfl⟩
        · rw [if_neg hev]
          refine ⟨?_, ih.2⟩
          simpa [alookup, hk] using ih.1

theorem streakPhase_resets (keyStates : List (String × KeyStatusCounts))
    (byKey : List (String × RankedProxy)) :
    ∀ (act : List (String × ActiveEntry)) (k : String) (e : ActiveEntry),
      (act.map Prod.fst).Nodup → alookup act k = some e →
      0 < ((alookup keyStates k).getD zeroCounts).online →
      alookup (streakPhase keyStates byKey act).1 k
        = some ⟨(alookup byKey k).getD e.item, e.addedAt, 0⟩
  | [], k, e, _, hl, _ => by simp [alookup] at hl
  | (k0, e0) :: act, k, e, hn, hl, hon => by
      have he : streakPhase keyStates byKey ((k0, e0) :: act)
          = (if (streakUpdate keyStates byKey k0 e0).badStreak ≥ topBLBadStreakLimit
             then ((streakPhase keyStates byKey act).1, true)
             else ((k0, streakUpdate keyStates byKey k0 e0)
                    :: (streakPhase keyStates byKey act).1,
                  (streakPhase keyStates byKey act).2)) := rfl
      have hn' : (∀ x, (k0, x) ∉ act) ∧ (act.map Prod.fst).Nodup := by simpa using hn
      by_cases hk : k = k0
      · subst hk
        have he0 : e0 = e := Option.some.inj (by simpa [alookup] using hl)
        subst he0
        have hupd : streakUpdate keyStates byKey k e0
            = ⟨(alookup byKey k).getD e0.item, e0.addedAt, 0⟩ := by
          simp [streakUpdate, hon.ne']
        have hev : ¬ (streakUpdate keyStates byKey k e0).badStreak
            ≥ topBLBadStreakLimit := by
          rw [hupd]
          show ¬ (0 : Nat) ≥ topBLBadStreakLimit
          decide
        rw [he, if_neg hev]
        simp [alookup, hupd]
      · have hl' : alookup act k = some e := by simpa [alookup, hk] using hl
        have ih := streakPhase_resets keyStates byKey act k e hn'.2 hl' hon
        rw [he]
        by_cases hev : (streakUpdate keyStates byKey k0 e0).badStreak
            ≥ topBLBadStreakLimit
        · rw [if_pos hev]
          exact ih
        · rw [if_neg hev]
          simpa [alookup, hk] using ih

theorem next_publishes_on_emergency (s : SelectorState) (proxies : List Proxy)
    (statusFn : StatusFn) (now : Nat)
    (hsc : nextShortCircuit s (nextSelection proxies statusFn) = false)
    (hem : (nextReconciled s proxies statusFn now).2 = true)
    (hprop : nextProposed s proxies statusFn now ≠ []) :
    nextRun s proxies statusFn now
      = ⟨nextProposed s proxies statusFn now,
          { limit := s.limit, emaByKey := (nextEma s proxies statusFn).1,
            active := (nextReconciled s proxies statusFn now).1,
            published := nextProposed s proxies statusFn now,
            lastPublished := now, hadEmergency := false }⟩ := by
  have hsc' : ¬ nextShortCircuit s (nextSelection proxies statusFn) = true := by
    simp [hsc]
  show (if nextShortCircuit s (nextSelection proxies statusFn) = true then _
      else _) = _
  rw [if_neg hsc']
  show (if nextProposed s proxies statusFn now = [] ∧ s.published ≠ [] then _
      else _) = _
  rw [if_neg (fun h => hprop h.1)]
  show (if (s.published = [] ∨ now - s.lastPublished ≥ topBLBatchInterval ∨
      (nextReconciled s proxies statusFn now).2 = true) ∧
      nextProposed s proxies statusFn now ≠ [] then _ else _) = _
  rw [if_pos ⟨Or.inr (Or.inr hem), hprop⟩]

theorem next_resets_flag (s : SelectorState) (proxies : List Proxy)
    (statusFn : StatusFn) (now : Nat)
    (hsc : nextShortCircuit s (nextSelection proxies statusFn) = false)
    (hne : ¬ (nextProposed s proxies statusFn now = [] ∧ s.published ≠ [])) :
    (nextRun s proxies statusFn now).state.hadEmergency = false := by
  have hsc' : ¬ nextShortCircuit s (nextSelection proxies statusFn) = true := by
    simp [hsc]
  show (if nextShortCircuit s (nextSelection proxies statusFn) = true then
      NextResult.mk s.published s else _).state.hadEmergency = false
  rw [if_neg hsc']
  show (if nextProposed s proxies statusFn now = [] ∧ s.published ≠ [] then _
      else _ : NextResult).state.hadEmergency = false
  rw [if_neg hne]
  by_cases hpub : (s.published = [] ∨ now - s.lastPublished ≥ topBLBatchInterval ∨
      (nextReconciled s proxies statusFn now).2 = true) ∧
      nextProposed s proxies statusFn now ≠ []
  · show (if (s.published = [] ∨ now - s.lastPublished ≥ topBLBatchInterval ∨
        (nextReconciled s proxies statusFn now).2 = true) ∧
        nextProposed s proxies statusFn now ≠ [] then _
        else _ : NextResult).state.hadEmergency = false
    rw [if_pos hpub]
  · show (if (s.published = [] ∨ now - s.lastPublished ≥ topBLBatchInterval ∨
        (nextReconciled s proxies statusFn now).2 = true) ∧
        nextProposed s proxies statusFn now ≠ [] then _
        else _ : NextResult).state.hadEmergency = false
    rw [if_neg hpub]

/-- C3 (amended): an active entry whose dedup key shows no online
observation this cycle has its bad-streak incremented; if the streak was
already at least 1 (a second consecutive bad cycle) the entry is evicted
during the bad-streak loop and the eviction raises the emergency flag; a
key that does show an online observation has its streak reset to 0 and its
cached candidate refreshed.  The raised flag reaches `Next`'s publish
decision (flag wiring) and forces a publish in that very invocation even
when the batch interval has not elapsed, provided the invocation reaches the
publish step with a non-empty proposed list.  The emergency flag ends the
invocation `false` whenever the publish decision is reached, but it is NOT
reset on the two early-return paths (the claim's "reset during every
invocation" fails there). -/
theorem bad_streak_eviction_amended :
    (∀ (keyStates : List (String × KeyStatusCounts))
        (byKey : List (String × RankedProxy)) (act : List (String × ActiveEntry))
        (k : String) (e : ActiveEntry),
        (act.map Prod.fst).Nodup → alookup act k = some e →
        ((alookup keyStates k).getD zeroCounts).online = 0 → 1 ≤ e.badStreak →
        alookup (streakPhase keyStates byKey act).1 k = none ∧
        (streakPhase keyStates byKey act).2 = true) ∧
    (∀ (keyStates : List (String × KeyStatusCounts))
        (byKey : List (String × RankedProxy)) (act : List (String × ActiveEntry))
        (k : String) (e : ActiveEntry),
        (act.map Prod.fst).Nodup → alookup act k = some e →
        0 < ((alookup keyStates k).getD zeroCounts).online →
        alookup (streakPhase keyStates byKey act).1 k
          = some ⟨(alookup byKey k).getD e.item, e.addedAt, 0⟩) ∧
    (∀ (s : SelectorState) (proxies : List Proxy) (statusFn : StatusFn) (now : Nat),
        (nextReconciled s proxies statusFn now).2
          = (s.hadEmergency ||
              (streakPhase (nextSelection proxies statusFn).keyStates
                (buildByKey (nextEma s proxies statusFn).2) s.active).2)) ∧
    (∀ (s : SelectorState) (proxies : List Proxy) (statusFn : StatusFn) (now : Nat),
        nextShortCircuit s (nextSelection proxies statusFn) = false →
        (nextReconciled s proxies statusFn now).2 = true →
        nextProposed s proxies statusFn now ≠ [] →
        nextRun s proxies statusFn now
          = ⟨nextProposed s proxies statusFn now,
              { limit := s.limit, emaByKey := (nextEma s proxies statusFn).1,
                active := (nextReconciled s proxies statusFn now).1,
                published := nextProposed s proxies statusFn now,
                lastPublished := now, hadEmergency := false }⟩) ∧
    (∀ (s : SelectorState) (proxies : List Proxy) (statusFn : StatusFn) (now : Nat),
        nextShortCircuit s (nextSelection proxies statusFn) = false →
        ¬ (nextProposed s proxies statusFn now = [] ∧ s.published ≠ []) →
        (nextRun s proxies statusFn now).state.hadEmergency = false) :=
  ⟨streakPhase_evicts, streakPhase_resets,
    fun _ _ _ _ => rfl, next_publishes_on_emergency, next_resets_flag⟩

def c3entry : ActiveEntry :=
  ⟨⟨⟨"vless", "s", 1, "BL n", "", "", "", "lx", "sd", 0⟩, 500, "k"⟩, 0, 1⟩

def c3keep : ActiveEntry :=
  ⟨⟨⟨"vless", "s", 1, "BL m", "", "", "", "ly", "sd2", 0⟩, 400, "k2"⟩, 0, 0⟩

def c3status : StatusFn := fun _ => none

def c3s : SelectorState := ⟨2, [], [("k", c3entry)], ["prev"], 0, false⟩

def c3ws : SelectorState := ⟨2, [], [("k", c3entry), ("k2", c3keep)], [], 0, false⟩

theorem bad_streak_eviction_amended_witness :
    nextRun c3ws [] c3status 5
      = ⟨nextProposed c3ws [] c3status 5,
          { limit := c3ws.limit, emaByKey := (nextEma c3ws [] c3status).1,
            active := (nextReconciled c3ws [] c3status 5).1,
            published := nextProposed c3ws [] c3status 5,
            lastPublished := 5, hadEmergency := false }⟩ :=
  bad_streak_eviction_amended.2.2.2.1 c3ws [] c3status 5 (by decide) (by decide)
    (by decide)

/-- C3 counterexample: the claim says the emergency flag is reset during
every invocation.  Here an invocation that performs the claimed bad-streak
eviction (raising the flag) ends with an empty proposed list while a
previous publication exists, so `Next` returns early and leaves the flag
raised. -/
theorem emergency_flag_not_reset_cex :
    c3s.hadEmergency = false ∧
    (nextRun c3s [] c3status 100).state.hadEmergency = true ∧
    (nextRun c3s [] c3status 100).links = ["prev"] := by
  exact ⟨by decide, by decide, by decide⟩

/-! ### Claim C10: determinism of `Next` across map iteration orders -/

/-- Map equality of association lists: equal lookups at every key.  Two
association lists that are `MEq` model one and the same Go map, possibly
iterated in different orders. -/
def MEq {α : Type} (l1 l2 : List (String × α)) : Prop :=
  ∀ k, alookup l1 k = alookup l2 k

/-- Two selector states that are identical as states: the plain fields are
equal and the two Go maps are equal as maps. -/
def SelEquiv (s1 s2 : SelectorState) : Prop :=
  s1.limit = s2.limit ∧ MEq s1.emaByKey s2.emaByKey ∧ MEq s1.active s2.active ∧
  s1.published = s2.published ∧ s1.lastPublished = s2.lastPublished ∧
  s1.hadEmergency = s2.hadEmergency

theorem MEq_refl {α : Type} (l : List (String × α)) : MEq l l := fun _ => rfl

theorem MEq_ains {α : Type} {l1 l2 : List (String × α)} (h : MEq l1 l2)
    (k : String) (v : α) : MEq (ains l1 k v) (ains l2 k v) := by
  intro k'
  rw [alookup_ains, alookup_ains, h k']

theorem MEq_adel {α : Type} {l1 l2 : List (String × α)} (h : MEq l1 l2)
    (k : String) : MEq (adel l1 k) (adel l2 k) := by
  intro k'
  rw [alookup_adel, alookup_adel, h k']

theorem mem_iff_of_meq {α : Type} {a1 a2 : List (String × α)} (h : MEq a1 a2)
    (hn1 : (a1.map Prod.fst).Nodup) (hn2 : (a2.map Prod.fst).Nodup)
    (k : String) (v : α) : (k, v) ∈ a1 ↔ (k, v) ∈ a2 := by
  constructor
  · intro hm
    exact alookup_mem ((h k).symm.trans (alookup_eq_of_mem_nodup hm hn1))
  · intro hm
    exact alookup_mem ((h k).trans (alookup_eq_of_mem_nodup hm hn2))

theorem key_mem_iff_isSome {α : Type} (l : List (String × α)) (k : String) :
    k ∈ l.map Prod.fst ↔ (alookup l k).isSome = true := by
  constructor
  · intro hm
    cases he : alookup l k with
    | some v => rfl
    | none => exact absurd hm ((alookup_eq_none_iff l k).mp he)
  · intro hs
    cases he : alookup l k with
    | none => rw [he] at hs; cases hs
    | some v =>
        by_contra hm
        rw [← alookup_eq_none_iff] at hm
        rw [hm] at he
        cases he

theorem length_eq_of_meq {α : Type} {a1 a2 : List (String × α)} (h : MEq a1 a2)
    (hn1 : (a1.map Prod.fst).Nodup) (hn2 : (a2.map Prod.fst).Nodup) :
    a1.length = a2.length := by
  have hperm : (a1.map Prod.fst).Perm (a2.map Prod.fst) := by
    rw [List.perm_ext_iff_of_nodup hn1 hn2]
    intro k
    rw [key_mem_iff_isSome, key_mem_iff_isSome, h k]
  have := hperm.length_eq
  simpa using this

theorem mem_ains {α : Type} :
    ∀ {l : List (String × α)} {k : String} {v : α} {x : String × α},
      x ∈ ains l k v → x ∈ l ∨ x = (k, v)
  | [], k, v, x, h => by
      simp [ains] at h
      exact Or.inr h
  | (k0, v0) :: rest, k, v, x, h => by
      by_cases hk : k = k0
      · subst hk
        simp only [ains, if_pos rfl] at h
        rcases List.mem_cons.mp h with h | h
        · exact Or.inr h
        · exact Or.inl (List.mem_cons_of_mem _ h)
      · simp only [ains, if_neg hk] at h
        rcases List.mem_cons.mp h with h | h
        · exact Or.inl (List.mem_cons.mpr (Or.inl h))
        · rcases mem_ains h with h' | h'
          · exact Or.inl (List.mem_cons_of_mem _ h')
          · exact Or.inr h'

theorem mem_adel {α : Type} :
    ∀ {l : List (String × α)} {k : String} {x : String × α},
      x ∈ adel l k → x ∈ l
  | [], k, x, h => by simp [adel] at h
  | (k0, v0) :: rest, k, x, h => by
      by_cases hk : k0 = k
      · simp only [adel, if_pos hk] at h
        exact List.mem_cons_of_mem _ (mem_adel h)
      · simp only [adel, if_neg hk] at h
        rcases List.mem_cons.mp h with h | h
        · exact List.mem_cons.mpr (Or.inl h)
        · exact List.mem_cons_of_mem _ (mem_adel h)

def c10proxyE1 : Proxy := ⟨"vless", "s", 1, "N", "", "", "", "lineA", "sidE", 0⟩

def c10proxyE2 : Proxy := ⟨"vless", "s", 1, "N", "", "", "", "lineB", "sidE", 0⟩

def c10e1 : ActiveEntry := ⟨⟨c10proxyE1, 1000000000, "k1"⟩, 0, 0⟩

def c10e2 : ActiveEntry := ⟨⟨c10proxyE2, 1000000000, "k2"⟩, 0, 0⟩

def c10cand : Proxy := ⟨"vless", "s", 1, "BLX", "", "", "", "lc", "sidc", 0⟩

def c10status : StatusFn :=
  fun sid => if sid = "sidc" then some (true, 100000000) else none

def c10s1 : SelectorState := ⟨2, [], [("k1", c10e1), ("k2", c10e2)], [], 0, false⟩

def c10s2 : SelectorState := ⟨2, [], [("k2", c10e2), ("k1", c10e1)], [], 0, false⟩

/-- C10 counterexample: the two selector states are identical as states
(their active maps hold the same two entries) and the two runs receive the
same proxy list, status function and clock, yet the runs return different
link lists.  The two active entries tie on the comparison key (equal EMA
latency, equal normalized name, equal stable identity, distinct source
lines), so `findWorstReplaceable` — which scans the map in the unspecified
Go iteration order modelled by the association-list order — evicts a
different entry in each run. -/
theorem next_map_order_cex :
    SelEquiv c10s1 c10s2 ∧
    (nextRun c10s1 [c10cand] c10status 8000000000000).links
      ≠ (nextRun c10s2 [c10cand] c10status 8000000000000).links := by
  constructor
  · refine ⟨rfl, fun _ => rfl, ?_, rfl, rfl, rfl⟩
    intro k
    by_cases h1 : k = "k1"
    · subst h1
      rfl
    · by_cases h2 : k = "k2"
      · subst h2
        rfl
      · show alookup [("k1", c10e1), ("k2", c10e2)] k
            = alookup [("k2", c10e2), ("k1", c10e1)] k
        simp [alookup, h1, h2]
  · decide

theorem sortCand_sorted (l : List RankedProxy) : List.Sorted candLE (sortCand l) :=
  List.sorted_insertionSort candLE l

theorem sortCand_perm (l : List RankedProxy) : (sortCand l).Perm l :=
  List.perm_insertionSort candLE l

theorem sorted_unique :
    ∀ (l1 l2 : List RankedProxy), l1.Perm l2 → List.Sorted candLE l1 →
      List.Sorted candLE l2 → (l1.map candCmpKey).Nodup → l1 = l2
  | [], l2, hp, _, _, _ => (hp.symm.eq_nil).symm
  | a :: t1, [], hp, _, _, _ => absurd hp.eq_nil (by simp)
  | a :: t1, b :: t2, hp, hs1, hs2, hn => by
      by_cases hab : a = b
      · subst hab
        have ht : t1.Perm t2 := hp.cons_inv
        have := sorted_unique t1 t2 ht hs1.of_cons hs2.of_cons
          (by simpa using hn.of_cons)
        rw [this]
      · have ha2 : a ∈ t2 := by
          have : a ∈ b :: t2 := hp.subset (List.mem_cons_self _ _)
          rcases List.mem_cons.mp this with h | h
          · exact absurd h hab
          · exact h
        have hb1 : b ∈ t1 := by
          have : b ∈ a :: t1 := hp.symm.subset (List.mem_cons_self _ _)
          rcases List.mem_cons.mp this with h | h
          · exact absurd h.symm hab
          · exact h
        have hle1 : candLE a b := List.rel_of_sorted_cons hs1 b hb1
        have hle2 : candLE b a := List.rel_of_sorted_cons hs2 a ha2
        have hkey : candCmpKey a = candCmpKey b := better_tie hle2 hle1
        have : a = b := List.inj_on_of_nodup_map hn (List.mem_cons_self _ _)
          (List.mem_cons_of_mem _ hb1) hkey
        exact absurd this hab

theorem applyEMAList_congr :
    ∀ (ps : List RankedProxy) (m1 m2 : List (String × Nat)), MEq m1 m2 →
      MEq (applyEMAList m1 ps).1 (applyEMAList m2 ps).1 ∧
      (applyEMAList m1 ps).2 = (applyEMAList m2 ps).2
  | [], m1, m2, h => ⟨h, rfl⟩
  | p :: ps, m1, m2, h => by
      have hk := h p.key
      have ih := applyEMAList_congr ps
        (ains m1 p.key (emaStep (alookup m1 p.key) p.latency))
        (ains m2 p.key (emaStep (alookup m1 p.key) p.latency))
        (MEq_ains h p.key _)
      simp only [applyEMAList]
      rw [← hk]
      exact ⟨ih.1, by rw [ih.2]⟩

theorem streakPhase_lookup (keyStates : List (String × KeyStatusCounts))
    (byKey : List (String × RankedProxy)) :
    ∀ (act : List (String × ActiveEntry)), (act.map Prod.fst).Nodup →
      ∀ k, alookup (streakPhase keyStates byKey act).1 k
        = (alookup act k).bind (fun e =>
            if (streakUpdate keyStates byKey k e).badStreak ≥ topBLBadStreakLimit
            then none else some (streakUpdate keyStates byKey k e))
  | [], _, k => by simp [streakPhase, alookup]
  | (k0, e0) :: act, hn, k => by
      have he : streakPhase keyStates byKey ((k0, e0) :: act)
          = (if (streakUpdate keyStates byKey k0 e0).badStreak ≥ topBLBadStreakLimit
             then ((streakPhase keyStates byKey act).1, true)
             else ((k0, streakUpdate keyStates byKey k0 e0)
                    :: (streakPhase keyStates byKey act).1,
                  (streakPhase keyStates byKey act).2)) := rfl
      have hn' : (∀ x, (k0, x) ∉ act) ∧ (act.map Prod.fst).Nodup := by simpa using hn
      by_cases hk : k = k0
      · subst hk
        rw [he]
        by_cases hev : (streakUpdate keyStates byKey k e0).badStreak
            ≥ topBLBadStreakLimit
        · rw [if_pos hev]
          have hnone : alookup (streakPhase keyStates byKey act).1 k = none := by
            rw [alookup_eq_none_iff]
            intro hmem
            have hsub := streakPhase_keys_sublist keyStates byKey act
            rcases List.mem_map.mp (hsub.mem hmem) with ⟨⟨kx, ex⟩, hx, hke⟩
            exact hn'.1 ex (by simpa [← hke] using hx)
          simp [alookup, hnone, hev]
        · rw [if_neg hev]
          simp [alookup, hev]
      · have ih := streakPhase_lookup keyStates byKey act hn'.2 k
        rw [he]
        by_cases hev : (streakUpdate keyStates byKey k0 e0).badStreak
            ≥ topBLBadStreakLimit
        · rw [if_pos hev]
          simpa [alookup, hk] using ih
        · rw [if_neg hev]
          simpa [alookup, hk] using ih

theorem streakPhase_flag (keyStates : List (String × KeyStatusCounts))
    (byKey : List (String × RankedProxy)) :
    ∀ act : List (String × ActiveEntry),
      (streakPhase keyStates byKey act).2
        = act.any (fun kv =>
            decide ((streakUpdate keyStates byKey kv.1 kv.2).badStreak
              ≥ topBLBadStreakLimit))
  | [] => rfl
  | (k0, e0) :: act => by
      have he : streakPhase keyStates byKey ((k0, e0) :: act)
          = (if (streakUpdate keyStates byKey k0 e0).badStreak ≥ topBLBadStreakLimit
             then ((streakPhase keyStates byKey act).1, true)
             else ((k0, streakUpdate keyStates byKey k0 e0)
                    :: (streakPhase keyStates byKey act).1,
                  (streakPhase keyStates byKey act).2)) := rfl
      rw [he]
      by_cases hev : (streakUpdate keyStates byKey k0 e0).badStreak
          ≥ topBLBadStreakLimit
      · rw [if_pos hev]
        simp [List.any_cons, hev]
      · rw [if_neg hev]
        simp [List.any_cons, hev]
        exact streakPhase_flag keyStates byKey act

theorem streakPhase_flag_congr (keyStates : List (String × KeyStatusCounts))
    (byKey : List (String × RankedProxy)) {a1 a2 : List (String × ActiveEntry)}
    (h : MEq a1 a2) (hn1 : (a1.map Prod.fst).Nodup)
    (hn2 : (a2.map Prod.fst).Nodup) :
    (streakPhase keyStates byKey a1).2 = (streakPhase keyStates byKey a2).2 := by
  rw [streakPhase_flag, streakPhase_flag]
  cases hb : a2.any (fun kv =>
      decide ((streakUpdate keyStates byKey kv.1 kv.2).badStreak
        ≥ topBLBadStreakLimit)) with
  | true =>
      rcases List.any_eq_true.mp hb with ⟨⟨k, e⟩, hm, hp⟩
      exact List.any_eq_true.mpr
        ⟨(k, e), (mem_iff_of_meq h hn1 hn2 k e).mpr hm, hp⟩
  | false =>
      cases ha : a1.any (fun kv =>
          decide ((streakUpdate keyStates byKey kv.1 kv.2).badStreak
            ≥ topBLBadStreakLimit)) with
      | false => rfl
      | true =>
          rcases List.any_eq_true.mp ha with ⟨⟨k, e⟩, hm, hp⟩
          have : a2.any (fun kv =>
              decide ((streakUpdate keyStates byKey kv.1 kv.2).badStreak
                ≥ topBLBadStreakLimit)) = true := List.any_eq_true.mpr
            ⟨(k, e), (mem_iff_of_meq h hn1 hn2 k e).mp hm, hp⟩
          rw [hb] at this
          cases this

theorem buildByKey_fold_spec (pool : List RankedProxy) :
    ∀ (l : List RankedProxy) (acc : List (String × RankedProxy)),
      (∀ x ∈ l, x ∈ pool) →
      (∀ k r, alookup acc k = some r → r.key = k ∧ r ∈ pool) →
      ∀ k r,
        alookup (l.foldl (fun m x => if (alookup m x.key).isSome then m
          else ains m x.key x) acc) k = some r → r.key = k ∧ r ∈ pool
  | [], acc, _, hacc, k, r, h => hacc k r h
  | x :: l, acc, hsub, hacc, k, r, h => by
      rw [List.foldl_cons] at h
      by_cases hx : (alookup acc x.key).isSome = true
      · rw [if_pos hx] at h
        exact buildByKey_fold_spec pool l acc
          (fun y hy => hsub y (List.mem_cons_of_mem _ hy)) hacc k r h
      · rw [if_neg hx] at h
        refine buildByKey_fold_spec pool l (ains acc x.key x)
          (fun y hy => hsub y (List.mem_cons_of_mem _ hy)) ?_ k r h
        intro k' r' h'
        rw [alookup_ains] at h'
        by_cases hk' : k' = x.key
        · rw [if_pos hk'] at h'
          have : x = r' := Option.some.inj h'
          rw [← this, hk']
          exact ⟨rfl, hsub x (List.mem_cons_self _ _)⟩
        · rw [if_neg hk'] at h'
          exact hacc k' r' h'

theorem buildByKey_spec (pool : List RankedProxy) (l : List RankedProxy)
    (hsub : ∀ x ∈ l, x ∈ pool) (k : String) (r : RankedProxy)
    (h : alookup (buildByKey l) k = some r) : r.key = k ∧ r ∈ pool :=
  buildByKey_fold_spec pool l [] hsub (fun _ _ h' => by cases h') k r h

/-- Invariant carried through the reconcile phases for the determinism
proof: distinct keys, each entry's item keyed by its map key, every item
drawn from the fixed candidate pool. -/
def ActInv (pool : List RankedProxy) (act : List (String × ActiveEntry)) : Prop :=
  (act.map Prod.fst).Nodup ∧
  ∀ k e, (k, e) ∈ act → e.item.key = k ∧ e.item ∈ pool

theorem actInv_distinct (pool : List RankedProxy)
    (hpool : (pool.map candCmpKey).Nodup) {act : List (String × ActiveEntry)}
    (hinv : ActInv pool act) :
    ∀ k e k' e', (k, e) ∈ act → (k', e') ∈ act → k ≠ k' →
      candCmpKey e.item ≠ candCmpKey e'.item := by
  intro k e k' e' hm hm' hk hcontra
  have h1 := hinv.2 k e hm
  have h2 := hinv.2 k' e' hm'
  have hitem : e.item = e'.item :=
    List.inj_on_of_nodup_map hpool h1.2 h2.2 hcontra
  have : k = k' := by rw [← h1.1, ← h2.1, hitem]
  exact hk this

theorem streakPhase_actInv (pool : List RankedProxy)
    (keyStates : List (String × KeyStatusCounts))
    (byKey : List (String × RankedProxy)) (act : List (String × ActiveEntry))
    (hbk : ∀ k r, alookup byKey k = some r → r.key = k ∧ r ∈ pool)
    (hinv : ActInv pool act) :
    ActInv pool (streakPhase keyStates byKey act).1 := by
  have hnod := (streakPhase_keys_sublist keyStates byKey act).nodup hinv.1
  refine ⟨hnod, ?_⟩
  intro k e hm
  have hl : alookup (streakPhase keyStates byKey act).1 k = some e :=
    alookup_eq_of_mem_nodup hm hnod
  rw [streakPhase_lookup keyStates byKey act hinv.1 k] at hl
  cases ha : alookup act k with
  | none => rw [ha] at hl; cases hl
  | some e0 =>
      rw [ha] at hl
      have hl' : (if (streakUpdate keyStates byKey k e0).badStreak
            ≥ topBLBadStreakLimit
          then none else some (streakUpdate keyStates byKey k e0)) = some e := hl
      by_cases hev : (streakUpdate keyStates byKey k e0).badStreak
          ≥ topBLBadStreakLimit
      · rw [if_pos hev] at hl'
        cases hl'
      · rw [if_neg hev] at hl'
        have he : e = streakUpdate keyStates byKey k e0 :=
          (Option.some.inj hl').symm
        have h0 := hinv.2 k e0 (alookup_mem ha)
        rw [he]
        cases hb : alookup byKey k with
        | none =>
            constructor
            · simpa [streakUpdate, hb] using h0.1
            · simpa [streakUpdate, hb] using h0.2
        | some r =>
            have hr := hbk k r hb
            constructor
            · simpa [streakUpdate, hb] using hr.1
            · simpa [streakUpdate, hb] using hr.2

theorem actInv_ains (pool : List RankedProxy) {act : List (String × ActiveEntry)}
    (hinv : ActInv pool act) (c : RankedProxy) (hc : c ∈ pool) (now : Nat) :
    ActInv pool (ains act c.key ⟨c, now, 0⟩) := by
  refine ⟨nodup_keys_ains _ _ hinv.1, ?_⟩
  intro k e hm
  rcases mem_ains hm with hm' | hm'
  · exact hinv.2 k e hm'
  · rw [Prod.mk.injEq] at hm'
    obtain ⟨h1, h2⟩ := hm'
    subst h1
    subst h2
    exact ⟨rfl, hc⟩

theorem actInv_adel (pool : List RankedProxy) {act : List (String × ActiveEntry)}
    (hinv : ActInv pool act) (k : String) : ActInv pool (adel act k) :=
  ⟨nodup_keys_adel _ hinv.1, fun k' e hm => hinv.2 k' e (mem_adel hm)⟩

theorem findWorst_congr (now : Nat) (pool : List RankedProxy)
    (hpool : (pool.map candCmpKey).Nodup) {a1 a2 : List (String × ActiveEntry)}
    (h : MEq a1 a2) (hi1 : ActInv pool a1) (hi2 : ActInv pool a2) :
    findWorstReplaceable now a1 = findWorstReplaceable now a2 := by
  cases h1 : findWorstReplaceable now a1 with
  | none =>
      cases h2 : findWorstReplaceable now a2 with
      | none => rfl
      | some p =>
          obtain ⟨wk, we⟩ := p
          have hs := findWorst_some now a2 wk we h2
          have hmem1 : (wk, we) ∈ a1 :=
            (mem_iff_of_meq h hi1.1 hi2.1 wk we).mpr hs.2.1
          exact absurd (findWorst_none now a1 h1 wk we hmem1) (by simp [hs.1])
  | some p =>
      obtain ⟨wk, we⟩ := p
      have hs1 := findWorst_some now a1 wk we h1
      cases h2 : findWorstReplaceable now a2 with
      | none =>
          have hmem2 : (wk, we) ∈ a2 :=
            (mem_iff_of_meq h hi1.1 hi2.1 wk we).mp hs1.2.1
          exact absurd (findWorst_none now a2 h2 wk we hmem2) (by simp [hs1.1])
      | some q =>
          obtain ⟨wk', we'⟩ := q
          have hs2 := findWorst_some now a2 wk' we' h2
          have hmem1' : (wk', we') ∈ a1 :=
            (mem_iff_of_meq h hi1.1 hi2.1 _ _).mpr hs2.2.1
          have hmem2' : (wk, we) ∈ a2 :=
            (mem_iff_of_meq h hi1.1 hi2.1 _ _).mp hs1.2.1
          have hA : isBetterCandidate we.item we'.item = false :=
            hs1.2.2 wk' we' hmem1' hs2.1
          have hB : isBetterCandidate we'.item we.item = false :=
            hs2.2.2 wk we hmem2' hs1.1
          have hkey : candCmpKey we.item = candCmpKey we'.item := better_tie hA hB
          by_cases hk : wk = wk'
          · subst hk
            have l1 : alookup a1 wk = some we :=
              alookup_eq_of_mem_nodup hs1.2.1 hi1.1
            have l2 : alookup a1 wk = some we' :=
              alookup_eq_of_mem_nodup hmem1' hi1.1
            rw [l1] at l2
            rw [Option.some.inj l2]
          · exact absurd hkey
              (actInv_distinct pool hpool hi1 wk we wk' we' hs1.2.1 hmem1' hk)

theorem fillPhase_congr (limit now : Nat) (pool : List RankedProxy) :
    ∀ (cs : List RankedProxy) (a1 a2 : List (String × ActiveEntry)),
      (∀ c ∈ cs, c ∈ pool) → MEq a1 a2 → ActInv pool a1 → ActInv pool a2 →
      (MEq (fillPhase limit now a1 cs) (fillPhase limit now a2 cs) ∧
        ActInv pool (fillPhase limit now a1 cs) ∧
        ActInv pool (fillPhase limit now a2 cs))
  | [], a1, a2, _, h, hi1, hi2 => ⟨h, hi1, hi2⟩
  | c :: cs, a1, a2, hsub, h, hi1, hi2 => by
      have hlen : a1.length = a2.length := length_eq_of_meq h hi1.1 hi2.1
      have hsub' : ∀ x ∈ cs, x ∈ pool :=
        fun x hx => hsub x (List.mem_cons_of_mem _ hx)
      by_cases hfull : a1.length ≥ limit
      · have hfull2 : a2.length ≥ limit := hlen ▸ hfull
        have e1 : fillPhase limit now a1 (c :: cs) = a1 := by
          simp only [fillPhase]
          rw [if_pos hfull]
        have e2 : fillPhase limit now a2 (c :: cs) = a2 := by
          simp only [fillPhase]
          rw [if_pos hfull2]
        rw [e1, e2]
        exact ⟨h, hi1, hi2⟩
      · have hfull2 : ¬ a2.length ≥ limit := by omega
        by_cases hk : (alookup a1 c.key).isSome = true
        · have hk2 : (alookup a2 c.key).isSome = true := by
            rw [← h c.key]
            exact hk
          have e1 : fillPhase limit now a1 (c :: cs) = fillPhase limit now a1 cs := by
            simp only [fillPhase]
            rw [if_neg hfull, if_pos hk]
          have e2 : fillPhase limit now a2 (c :: cs) = fillPhase limit now a2 cs := by
            simp only [fillPhase]
            rw [if_neg hfull2, if_pos hk2]
          rw [e1, e2]
          exact fillPhase_congr limit now pool cs a1 a2 hsub' h hi1 hi2
        · have hk2 : ¬ (alookup a2 c.key).isSome = true := by
            rw [← h c.key]
            exact hk
          have e1 : fillPhase limit now a1 (c :: cs)
              = fillPhase limit now (ains a1 c.key ⟨c, now, 0⟩) cs := by
            simp only [fillPhase]
            rw [if_neg hfull, if_neg hk]
          have e2 : fillPhase limit now a2 (c :: cs)
              = fillPhase limit now (ains a2 c.key ⟨c, now, 0⟩) cs := by
            simp only [fillPhase]
            rw [if_neg hfull2, if_neg hk2]
          rw [e1, e2]
          exact fillPhase_congr limit now pool cs _ _ hsub' (MEq_ains h c.key _)
            (actInv_ains pool hi1 c (hsub c (List.mem_cons_self _ _)) now)
            (actInv_ains pool hi2 c (hsub c (List.mem_cons_self _ _)) now)

theorem replacePhase_congr (now : Nat) (pool : List RankedProxy)
    (hpool : (pool.map candCmpKey).Nodup) :
    ∀ (cs : List RankedProxy) (a1 a2 : List (String × ActiveEntry)),
      (∀ c ∈ cs, c ∈ pool) → MEq a1 a2 → ActInv pool a1 → ActInv pool a2 →
      (MEq (replacePhase now a1 cs) (replacePhase now a2 cs) ∧
        ActInv pool (replacePhase now a1 cs) ∧
        ActInv pool (replacePhase now a2 cs))
  | [], a1, a2, _, h, hi1, hi2 => ⟨h, hi1, hi2⟩
  | c :: cs, a1, a2, hsub, h, hi1, hi2 => by
      have hsub' : ∀ x ∈ cs, x ∈ pool :=
        fun x hx => hsub x (List.mem_cons_of_mem _ hx)
      by_cases hk : (alookup a1 c.key).isSome = true
      · have hk2 : (alookup a2 c.key).isSome = true := by
          rw [← h c.key]
          exact hk
        have e1 : replacePhase now a1 (c :: cs) = replacePhase now a1 cs := by
          simp only [replacePhase]
          rw [if_pos hk]
        have e2 : replacePhase now a2 (c :: cs) = replacePhase now a2 cs := by
          simp only [replacePhase]
          rw [if_pos hk2]
        rw [e1, e2]
        exact replacePhase_congr now pool hpool cs a1 a2 hsub' h hi1 hi2
      · have hk2 : ¬ (alookup a2 c.key).isSome = true := by
          rw [← h c.key]
          exact hk
        have hw := findWorst_congr now pool hpool h hi1 hi2
        cases hwr : findWorstReplaceable now a1 with
        | none =>
            have hwr2 : findWorstReplaceable now a2 = none := by rw [← hw, hwr]
            have e1 : replacePhase now a1 (c :: cs) = a1 := by
              simp only [replacePhase]
              rw [if_neg hk, hwr]
            have e2 : replacePhase now a2 (c :: cs) = a2 := by
              simp only [replacePhase]
              rw [if_neg hk2, hwr2]
            rw [e1, e2]
            exact ⟨h, hi1, hi2⟩
        | some p =>
            obtain ⟨wk, we⟩ := p
            have hwr2 : findWorstReplaceable now a2 = some (wk, we) := by
              rw [← hw, hwr]
            by_cases hsig : isSignificantImprovement c.latency we.item.latency = true
            · have e1 : replacePhase now a1 (c :: cs)
                  = replacePhase now (ains (adel a1 wk) c.key ⟨c, now, 0⟩) cs := by
                simp only [replacePhase]
                rw [if_neg hk, hwr]
                simp [hsig]
              have e2 : replacePhase now a2 (c :: cs)
                  = replacePhase now (ains (adel a2 wk) c.key ⟨c, now, 0⟩) cs := by
                simp only [replacePhase]
                rw [if_neg hk2, hwr2]
                simp [hsig]
              rw [e1, e2]
              exact replacePhase_congr now pool hpool cs _ _ hsub'
                (MEq_ains (MEq_adel h wk) c.key _)
                (actInv_ains pool (actInv_adel pool hi1 wk) c
                  (hsub c (List.mem_cons_self _ _)) now)
                (actInv_ains pool (actInv_adel pool hi2 wk) c
                  (hsub c (List.mem_cons_self _ _)) now)
            · have e1 : replacePhase now a1 (c :: cs) = replacePhase now a1 cs := by
                simp only [replacePhase]
                rw [if_neg hk, hwr]
                simp [hsig]
              have e2 : replacePhase now a2 (c :: cs) = replacePhase now a2 cs := by
                simp only [replacePhase]
                rw [if_neg hk2, hwr2]
                simp [hsig]
              rw [e1, e2]
              exact replacePhase_congr now pool hpool cs a1 a2 hsub' h hi1 hi2

theorem actInv_items_nodup (pool : List RankedProxy)
    (hpool : (pool.map candCmpKey).Nodup) {act : List (String × ActiveEntry)}
    (hinv : ActInv pool act) :
    ((act.map (fun kv => kv.2.item)).map candCmpKey).Nodup := by
  rw [List.map_map]
  apply List.Nodup.map_on ?_ hinv.1.of_map
  intro x hx y hy hxy
  by_cases hk : x.1 = y.1
  · have l1 := alookup_eq_of_mem_nodup (show (x.1, x.2) ∈ act from hx) hinv.1
    have l2 := alookup_eq_of_mem_nodup (show (y.1, y.2) ∈ act from hy) hinv.1
    rw [hk] at l1
    rw [l1] at l2
    have h2 : x.2 = y.2 := Option.some.inj l2
    exact Prod.ext hk h2
  · exact absurd hxy (actInv_distinct pool hpool hinv x.1 x.2 y.1 y.2 hx hy hk)

theorem activeRanked_congr (limit : Nat) (pool : List RankedProxy)
    (hpool : (pool.map candCmpKey).Nodup) {a1 a2 : List (String × ActiveEntry)}
    (h : MEq a1 a2) (hi1 : ActInv pool a1) (hi2 : ActInv pool a2) :
    activeRanked limit a1 = activeRanked limit a2 := by
  have hperm : a1.Perm a2 := by
    rw [List.perm_ext_iff_of_nodup hi1.1.of_map hi2.1.of_map]
    intro x
    obtain ⟨k, e⟩ := x
    exact mem_iff_of_meq h hi1.1 hi2.1 k e
  have hitems : (a1.map (fun kv => kv.2.item)).Perm
      (a2.map (fun kv => kv.2.item)) := hperm.map _
  have hnodup1 : ((sortCand (a1.map (fun kv => kv.2.item))).map candCmpKey).Nodup := by
    have hbase := actInv_items_nodup pool hpool hi1
    exact (((sortCand_perm _).map candCmpKey).nodup_iff).mpr hbase
  have hsorteq : sortCand (a1.map (fun kv => kv.2.item))
      = sortCand (a2.map (fun kv => kv.2.item)) :=
    sorted_unique _ _
      ((sortCand_perm _).trans (hitems.trans (sortCand_perm _).symm))
      (sortCand_sorted _) (sortCand_sorted _) hnodup1
  unfold activeRanked
  rw [hsorteq]

/-- The candidate pool from which every active item of a `Next` invocation
is drawn: the items held on entry plus this cycle's smoothed ranked
candidates. -/
def candPool (s : SelectorState) (proxies : List Proxy) (statusFn : StatusFn) :
    List RankedProxy :=
  s.active.map (fun kv => kv.2.item) ++ (nextEma s proxies statusFn).2

theorem nextReconciled_fst (s : SelectorState) (proxies : List Proxy)
    (statusFn : StatusFn) (now : Nat) :
    (nextReconciled s proxies statusFn now).1
      = replacePhase now
          (fillPhase s.limit now
            (streakPhase (nextSelection proxies statusFn).keyStates
              (buildByKey (nextEma s proxies statusFn).2) s.active).1
            (nextEma s proxies statusFn).2)
          (nextEma s proxies statusFn).2 := rfl

theorem nextReconciled_snd2 (s : SelectorState) (proxies : List Proxy)
    (statusFn : StatusFn) (now : Nat) :
    (nextReconciled s proxies statusFn now).2
      = (s.hadEmergency ||
          (streakPhase (nextSelection proxies statusFn).keyStates
            (buildByKey (nextEma s proxies statusFn).2) s.active).2) := rfl

/-- C10 (amended): `Next` is deterministic across Go's unspecified map
iteration orders provided no two of the run's candidates or held items tie
on the comparison key (latency, normalized name, stable identity): two runs
from selectors with identical state (maps equal as maps), with each active
entry keyed by its item's dedup key, given the same proxy list, pure status
function and clock, return equal link lists and leave map-equal states.
Without the no-tie hypothesis this fails (see the order counterexample). -/
theorem next_deterministic_no_ties
    (s1 s2 : SelectorState) (proxies : List Proxy) (statusFn : StatusFn)
    (now : Nat) (heq : SelEquiv s1 s2)
    (hwf1 : (s1.active.map Prod.fst).Nodup)
    (hwf2 : (s2.active.map Prod.fst).Nodup)
    (hkey1 : ∀ k e, (k, e) ∈ s1.active → e.item.key = k)
    (hkey2 : ∀ k e, (k, e) ∈ s2.active → e.item.key = k)
    (hnt : ((candPool s1 proxies statusFn).map candCmpKey).Nodup) :
    (nextRun s1 proxies statusFn now).links
        = (nextRun s2 proxies statusFn now).links ∧
    SelEquiv (nextRun s1 proxies statusFn now).state
      (nextRun s2 proxies statusFn now).state := by
  obtain ⟨hlim, hema, hact, hpub, hlast, hflag⟩ := heq
  have hEmaAll := applyEMAList_congr (nextSelection proxies statusFn).proxies
    s1.emaByKey s2.emaByKey hema
  have hEma1 : MEq (nextEma s1 proxies statusFn).1 (nextEma s2 proxies statusFn).1 :=
    hEmaAll.1
  have hRanked : (nextEma s1 proxies statusFn).2 = (nextEma s2 proxies statusFn).2 := by
    show sortCand (applyEMAList s1.emaByKey (nextSelection proxies statusFn).proxies).2
        = sortCand (applyEMAList s2.emaByKey (nextSelection proxies statusFn).proxies).2
    rw [hEmaAll.2]
  have hsubR : ∀ x ∈ (nextEma s1 proxies statusFn).2,
      x ∈ candPool s1 proxies statusFn :=
    fun x hx => List.mem_append_right _ hx
  have hinv1 : ActInv (candPool s1 proxies statusFn) s1.active := by
    refine ⟨hwf1, ?_⟩
    intro k e hm
    exact ⟨hkey1 k e hm, List.mem_append_left _ (List.mem_map_of_mem _ hm)⟩
  have hinv2 : ActInv (candPool s1 proxies statusFn) s2.active := by
    refine ⟨hwf2, ?_⟩
    intro k e hm
    refine ⟨hkey2 k e hm, ?_⟩
    have hm1 : (k, e) ∈ s1.active := (mem_iff_of_meq hact hwf1 hwf2 k e).mpr hm
    exact List.mem_append_left _ (List.mem_map_of_mem _ hm1)
  have hbk : ∀ k r, alookup (buildByKey (nextEma s1 proxies statusFn).2) k
      = some r → r.key = k ∧ r ∈ candPool s1 proxies statusFn :=
    fun k r h => buildByKey_spec _ _ hsubR k r h
  have hstreakM : MEq
      (streakPhase (nextSelection proxies statusFn).keyStates
        (buildByKey (nextEma s1 proxies statusFn).2) s1.active).1
      (streakPhase (nextSelection proxies statusFn).keyStates
        (buildByKey (nextEma s1 proxies statusFn).2) s2.active).1 := by
    intro k
    rw [streakPhase_lookup _ _ s1.active hwf1 k,
      streakPhase_lookup _ _ s2.active hwf2 k, hact k]
  have hstreakI1 := streakPhase_actInv (candPool s1 proxies statusFn)
    (nextSelection proxies statusFn).keyStates
    (buildByKey (nextEma s1 proxies statusFn).2) s1.active hbk hinv1
  have hstreakI2 := streakPhase_actInv (candPool s1 proxies statusFn)
    (nextSelection proxies statusFn).keyStates
    (buildByKey (nextEma s1 proxies statusFn).2) s2.active hbk hinv2
  have hfill := fillPhase_congr s1.limit now (candPool s1 proxies statusFn)
    (nextEma s1 proxies statusFn).2 _ _ hsubR hstreakM hstreakI1 hstreakI2
  have hrep := replacePhase_congr now (candPool s1 proxies statusFn) hnt
    (nextEma s1 proxies statusFn).2 _ _ hsubR hfill.1 hfill.2.1 hfill.2.2
  have hact3M : MEq (nextReconciled s1 proxies statusFn now).1
      (nextReconciled s2 proxies statusFn now).1 := by
    rw [nextReconciled_fst, nextReconciled_fst, ← hRanked, ← hlim]
    exact hrep.1
  have hact3I1 : ActInv (candPool s1 proxies statusFn)
      (nextReconciled s1 proxies statusFn now).1 := by
    rw [nextReconciled_fst]
    exact hrep.2.1
  have hact3I2 : ActInv (candPool s1 proxies statusFn)
      (nextReconciled s2 proxies statusFn now).1 := by
    rw [nextReconciled_fst, ← hRanked, ← hlim]
    exact hrep.2.2
  have hflagR : (nextReconciled s1 proxies statusFn now).2
      = (nextReconciled s2 proxies statusFn now).2 := by
    rw [nextReconciled_snd2, nextReconciled_snd2, hflag, ← hRanked]
    rw [streakPhase_flag_congr _ _ hact hwf1 hwf2]
  have hAR : activeRanked s1.limit (nextReconciled s1 proxies statusFn now).1
      = activeRanked s2.limit (nextReconciled s2 proxies statusFn now).1 := by
    rw [← hlim]
    exact activeRanked_congr s1.limit (candPool s1 proxies statusFn) hnt
      hact3M hact3I1 hact3I2
  have hProp : nextProposed s1 proxies statusFn now
      = nextProposed s2 proxies statusFn now := by
    unfold nextProposed
    rw [hAR]
  have hSC : nextShortCircuit s1 (nextSelection proxies statusFn)
      = nextShortCircuit s2 (nextSelection proxies statusFn) := by
    unfold nextShortCircuit
    rw [hpub]
  by_cases hsc : nextShortCircuit s1 (nextSelection proxies statusFn) = true
  · have hsc2 : nextShortCircuit s2 (nextSelection proxies statusFn) = true := by
      rw [← hSC]
      exact hsc
    have e1 : nextRun s1 proxies statusFn now = ⟨s1.published, s1⟩ := by
      show (if nextShortCircuit s1 (nextSelection proxies statusFn) = true then
          NextResult.mk s1.published s1 else _) = _
      rw [if_pos hsc]
    have e2 : nextRun s2 proxies statusFn now = ⟨s2.published, s2⟩ := by
      show (if nextShortCircuit s2 (nextSelection proxies statusFn) = true then
          NextResult.mk s2.published s2 else _) = _
      rw [if_pos hsc2]
    rw [e1, e2]
    exact ⟨hpub, hlim, hema, hact, hpub, hlast, hflag⟩
  · have hsc2 : ¬ nextShortCircuit s2 (nextSelection proxies statusFn) = true := by
      rw [← hSC]
      exact hsc
    by_cases hempty : nextProposed s1 proxies statusFn now = [] ∧ s1.published ≠ []
    · have hempty2 : nextProposed s2 proxies statusFn now = [] ∧ s2.published ≠ [] := by
        rw [← hProp, ← hpub]
        exact hempty
      have e1 : nextRun s1 proxies statusFn now
          = ⟨s1.published,
              { limit := s1.limit, emaByKey := (nextEma s1 proxies statusFn).1,
                active := (nextReconciled s1 proxies statusFn now).1,
                published := s1.published, lastPublished := s1.lastPublished,
                hadEmergency := (nextReconciled s1 proxies statusFn now).2 }⟩ := by
        show (if nextShortCircuit s1 (nextSelection proxies statusFn) = true then _
            else _) = _
        rw [if_neg hsc]
        show (if nextProposed s1 proxies statusFn now = [] ∧ s1.published ≠ []
            then _ else _) = _
        rw [if_pos hempty]
      have e2 : nextRun s2 proxies statusFn now
          = ⟨s2.published,
              { limit := s2.limit, emaByKey := (nextEma s2 proxies statusFn).1,
                active := (nextReconciled s2 proxies statusFn now).1,
                published := s2.published, lastPublished := s2.lastPublished,
                hadEmergency := (nextReconciled s2 proxies statusFn now).2 }⟩ := by
        show (if nextShortCircuit s2 (nextSelection proxies statusFn) = true then _
            else _) = _
        rw [if_neg hsc2]
        show (if nextProposed s2 proxies statusFn now = [] ∧ s2.published ≠ []
            then _ else _) = _
        rw [if_pos hempty2]
      rw [e1, e2]
      exact ⟨hpub, hlim, hEma1, hact3M, hpub, hlast, hflagR⟩
    · have hempty2 : ¬ (nextProposed s2 proxies statusFn now = [] ∧
          s2.published ≠ []) := by
        rw [← hProp, ← hpub]
        exact hempty
      by_cases hpubc : (s1.published = [] ∨
          now - s1.lastPublished ≥ topBLBatchInterval ∨
          (nextReconciled s1 proxies statusFn now).2 = true) ∧
          nextProposed s1 proxies statusFn now ≠ []
      · have hpubc2 : (s2.published = [] ∨
            now - s2.lastPublished ≥ topBLBatchInterval ∨
            (nextReconciled s2 proxies statusFn now).2 = true) ∧
            nextProposed s2 proxies statusFn now ≠ [] := by
          rw [← hProp, ← hpub, ← hlast, ← hflagR]
          exact hpubc
        have e1 : nextRun s1 proxies statusFn now
            = ⟨nextProposed s1 proxies statusFn now,
                { limit := s1.limit, emaByKey := (nextEma s1 proxies statusFn).1,
                  active := (nextReconciled s1 proxies statusFn now).1,
                  published := nextProposed s1 proxies statusFn now,
                  lastPublished := now, hadEmergency := false }⟩ := by
          show (if nextShortCircuit s1 (nextSelection proxies statusFn) = true then _
              else _) = _
          rw [if_neg hsc]
          show (if nextProposed s1 proxies statusFn now = [] ∧ s1.published ≠ []
              then _ else _) = _
          rw [if_neg hempty]
          show (if (s1.published = [] ∨
              now - s1.lastPublished ≥ topBLBatchInterval ∨
              (nextReconciled s1 proxies statusFn now).2 = true) ∧
              nextProposed s1 proxies statusFn now ≠ [] then _ else _) = _
          rw [if_pos hpubc]
        have e2 : nextRun s2 proxies statusFn now
            = ⟨nextProposed s2 proxies statusFn now,
                { limit := s2.limit, emaByKey := (nextEma s2 proxies statusFn).1,
                  active := (nextReconciled s2 proxies statusFn now).1,
                  published := nextProposed s2 proxies statusFn now,
                  lastPublished := now, hadEmergency := false }⟩ := by
          show (if nextShortCircuit s2 (nextSelection proxies statusFn) = true then _
              else _) = _
          rw [if_neg hsc2]
          show (if nextProposed s2 proxies statusFn now = [] ∧ s2.published ≠ []
              then _ else _) = _
          rw [if_neg hempty2]
          show (if (s2.published = [] ∨
              now - s2.lastPublished ≥ topBLBatchInterval ∨
              (nextReconciled s2 proxies statusFn now).2 = true) ∧
              nextProposed s2 proxies statusFn now ≠ [] then _ else _) = _
          rw [if_pos hpubc2]
        rw [e1, e2]
        exact ⟨hProp, hlim, hEma1, hact3M, hProp, rfl, rfl⟩
      · have hpubc2 : ¬ ((s2.published = [] ∨
            now - s2.lastPublished ≥ topBLBatchInterval ∨
            (nextReconciled s2 proxies statusFn now).2 = true) ∧
            nextProposed s2 proxies statusFn now ≠ []) := by
          rw [← hProp, ← hpub, ← hlast, ← hflagR]
          exact hpubc
        have e1 : nextRun s1 proxies statusFn now
            = ⟨s1.published,
                { limit := s1.limit, emaByKey := (nextEma s1 proxies statusFn).1,
                  active := (nextReconciled s1 proxies statusFn now).1,
                  published := s1.published, lastPublished := s1.lastPublished,
                  hadEmergency := false }⟩ := by
          show (if nextShortCircuit s1 (nextSelection proxies statusFn) = true then _
              else _) = _
          rw [if_neg hsc]
          show (if nextProposed s1 proxies statusFn now = [] ∧ s1.published ≠ []
              then _ else _) = _
          rw [if_neg hempty]
          show (if (s1.published = [] ∨
              now - s1.lastPublished ≥ topBLBatchInterval ∨
              (nextReconciled s1 proxies statusFn now).2 = true) ∧
              nextProposed s1 proxies statusFn now ≠ [] then _ else _) = _
          rw [if_neg hpubc]
        have e2 : nextRun s2 proxies statusFn now
            = ⟨s2.published,
                { limit := s2.limit, emaByKey := (nextEma s2 proxies statusFn).1,
                  active := (nextReconciled s2 proxies statusFn now).1,
                  published := s2.published, lastPublished := s2.lastPublished,
                  hadEmergency := false }⟩ := by
          show (if nextShortCircuit s2 (nextSelection proxies statusFn) = true then _
              else _) = _
          rw [if_neg hsc2]
          show (if nextProposed s2 proxies statusFn now = [] ∧ s2.published ≠ []
              then _ else _) = _
          rw [if_neg hempty2]
          show (if (s2.published = [] ∨
              now - s2.lastPublished ≥ topBLBatchInterval ∨
              (nextReconciled s2 proxies statusFn now).2 = true) ∧
              nextProposed s2 proxies statusFn now ≠ [] then _ else _) = _
          rw [if_neg hpubc2]
        rw [e1, e2]
        exact ⟨hpub, hlim, hEma1, hact3M, hpub, hlast, rfl⟩

def w10proxy1 : Proxy := ⟨"vless", "s", 1, "N", "", "", "", "lineA", "sidA", 0⟩

def w10proxy2 : Proxy := ⟨"vless", "s", 1, "N", "", "", "", "lineB", "sidB", 0⟩

def w10e1 : ActiveEntry := ⟨⟨w10proxy1, 1000000000, "k1"⟩, 0, 0⟩

def w10e2 : ActiveEntry := ⟨⟨w10proxy2, 2000000000, "k2"⟩, 0, 0⟩

def w10cand : Proxy := ⟨"vless", "s", 1, "BLX", "", "", "", "lc", "sidc", 0⟩

def w10status : StatusFn :=
  fun sid => if sid = "sidc" then some (true, 100000000) else none

def w10s1 : SelectorState := ⟨2, [], [("k1", w10e1), ("k2", w10e2)], [], 0, false⟩

def w10s2 : SelectorState := ⟨2, [], [("k2", w10e2), ("k1", w10e1)], [], 0, false⟩

/-- Concrete run discharging the hypotheses of the C10 theorem: two active
entries with distinct comparison keys, held in opposite map orders by the
two selector states, plus one fresh candidate; both runs publish the same
links and leave map-equal states. -/
theorem next_deterministic_no_ties_witness :
    (w10s1.active.map Prod.fst).Nodup ∧
    ((candPool w10s1 [w10cand] w10status).map candCmpKey).Nodup ∧
    (nextRun w10s1 [w10cand] w10status 8000000000000).links
      = (nextRun w10s2 [w10cand] w10status 8000000000000).links ∧
    SelEquiv (nextRun w10s1 [w10cand] w10status 8000000000000).state
      (nextRun w10s2 [w10cand] w10status 8000000000000).state := by
  have heq : SelEquiv w10s1 w10s2 := by
    refine ⟨rfl, fun _ => rfl, ?_, rfl, rfl, rfl⟩
    intro k
    by_cases h1 : k = "k1"
    · subst h1
      rfl
    · by_cases h2 : k = "k2"
      · subst h2
        rfl
      · show alookup [("k1", w10e1), ("k2", w10e2)] k
            = alookup [("k2", w10e2), ("k1", w10e1)] k
        simp [alookup, h1, h2]
  have hkey1 : ∀ k e, (k, e) ∈ w10s1.active → e.item.key = k := by
    intro k e h
    have h' : (k, e) ∈ [("k1", w10e1), ("k2", w10e2)] := h
    simp only [List.mem_cons, List.not_mem_nil, or_false, Prod.mk.injEq] at h'
    rcases h' with ⟨hk, he⟩ | ⟨hk, he⟩
    · subst hk
      subst he
      rfl
    · subst hk
      subst he
      rfl
  have hkey2 : ∀ k e, (k, e) ∈ w10s2.active → e.item.key = k := by
    intro k e h
    have h' : (k, e) ∈ [("k2", w10e2), ("k1", w10e1)] := h
    simp only [List.mem_cons, List.not_mem_nil, or_false, Prod.mk.injEq] at h'
    rcases h' with ⟨hk, he⟩ | ⟨hk, he⟩
    · subst hk
      subst he
      rfl
    · subst hk
      subst he
      rfl
  have hmain := next_deterministic_no_ties w10s1 w10s2 [w10cand] w10status
    8000000000000 heq (by decide) (by decide) hkey1 hkey2 (by decide)
  exact ⟨by decide, by decide, hmain.1, hmain.2⟩

end XrayChecker
